import Mathlib

/-!
Verification of the in-memory indexed task/list store of the
task-management backend (src/storage/memoryStore.ts, src/repositories and
the repository classes in src/controllers/index.ts).

Shallow embedding conventions:
* JavaScript `Date` values are modelled as `Nat` milliseconds since the
  Unix epoch; `formatDateKey` (which produces the `YYYY-MM-DD` part of
  `toISOString()`) becomes division by `msPerDay`.
* JavaScript `Map` is an association list with insertion-order append on
  new keys and in-place replacement on existing keys; `Set` is a
  duplicate-free list with append on insertion.
* `undefined` / absent object fields are `Option.none`; optional patch
  fields follow JavaScript spread semantics (absent key = keep the old
  value).
* Thrown errors are surfaced as values paired with the state at the
  moment of the throw, matching the fact that a thrown JS exception
  leaves the store object with whatever mutations already happened.
-/

namespace TaskApi

inductive TaskStatus where
  | pending
  | completed
deriving DecidableEq, Repr

inductive TaskPriority where
  | low
  | medium
  | high
deriving DecidableEq, Repr

/-- Milliseconds per calendar day, the unit of JavaScript Date day arithmetic. -/
def msPerDay : Nat := 86400000

/-- Task entity (src/models/entities.ts `Task`). -/
structure Task where
  id : String
  list_id : String
  title : String
  description : Option String
  deadline : Option Nat
  priority : TaskPriority
  status : TaskStatus
  completed_at : Option Nat
  created_at : Nat
  updated_at : Nat
deriving DecidableEq, Repr

/-- List entity (src/models/entities.ts `List`). -/
structure ListRec where
  id : String
  name : String
  description : Option String
  color : Option String
  tasks_count : Nat
  created_at : Nat
  updated_at : Nat
deriving DecidableEq, Repr

/-- Error taxonomy surfaced by the store and repositories. -/
inductive StoreError where
  | capacityExceeded (max current : Nat)
  | notFound (id : String)
  | conflict (name : String)
deriving DecidableEq, Repr

/-! ### JavaScript `Map` as an association list -/

/-- The `Map.get`: value of the first entry with the given key. -/
def mapGet {K V : Type} [DecidableEq K] : List (K × V) → K → Option V
  | [], _ => none
  | p :: rest, k => if p.1 = k then some p.2 else mapGet rest k

/-- The `Map.set`: replace the entry with the key in place, else append. -/
def mapSet {K V : Type} [DecidableEq K] : List (K × V) → K → V → List (K × V)
  | [], k, v => [(k, v)]
  | p :: rest, k, v => if p.1 = k then (k, v) :: rest else p :: mapSet rest k v

/-- The `Map.delete`: remove the entry with the given key. -/
def mapDel {K V : Type} [DecidableEq K] : List (K × V) → K → List (K × V)
  | [], _ => []
  | p :: rest, k => if p.1 = k then mapDel rest k else p :: mapDel rest k

/-- The keys of a JavaScript `Map` are pairwise distinct. -/
def keysNodup {K V : Type} (m : List (K × V)) : Prop :=
  (m.map Prod.fst).Nodup

/-! ### JavaScript `Set` of task ids -/

/-- The `Set.add`: append if not already a member. -/
def setAdd (ids : List String) (i : String) : List String :=
  if i ∈ ids then ids else ids ++ [i]

/-- The `Set.delete`: remove the member. -/
def setDel (ids : List String) (i : String) : List String :=
  ids.filter (fun j => j ≠ i)

/-- Contents of an index bucket; a missing bucket reads as empty. -/
def bucketOf {K : Type} [DecidableEq K] (m : List (K × List String)) (k : K) : List String :=
  (mapGet m k).getD []

/--
The statements `if (!map.has(k)) map.set(k, new Set()); map.get(k)!.add(id)` — the two
statements of each branch of `updateTaskIndexes` collapse to: store the
bucket extended with the id.
-/
def bucketAdd {K : Type} [DecidableEq K] (m : List (K × List String)) (k : K) (i : String) :
    List (K × List String) :=
  mapSet m k (setAdd (bucketOf m k) i)

/--
The per-index step of `removeTaskFromIndexes`: delete the id from the
bucket and prune the bucket from the map when it becomes empty.
-/
def bucketDel {K : Type} [DecidableEq K] (m : List (K × List String)) (k : K) (i : String) :
    List (K × List String) :=
  match mapGet m k with
  | none => m
  | some ids =>
    let ids' := setDel ids i
    if ids'.length = 0 then mapDel m k else mapSet m k ids'

/-! ### Store state (`MemoryStore` fields) -/

/--
The `MemoryStore` state: primary record maps, the four secondary indexes
(`StorageIndexes`), and the configured capacity. The `stats` field of the
source is monitoring metadata (timestamps, operation counters, estimated
memory) with no influence on any record or index and is not modelled.
-/
structure Store where
  lists : List (String × ListRec)
  tasks : List (String × Task)
  byList : List (String × List String)
  byStatus : List (TaskStatus × List String)
  byPriority : List (TaskPriority × List String)
  byDeadline : List (Nat × List String)
  maxSize : Nat
deriving DecidableEq, Repr

/-- A freshly constructed store (`new MemoryStore(maxSize)`). -/
def emptyStore (maxSize : Nat) : Store :=
  { lists := [], tasks := [], byList := [], byStatus := [], byPriority := [],
    byDeadline := [], maxSize := maxSize }

/-- The `formatDateKey`: the UTC calendar day of a timestamp (`YYYY-MM-DD`). -/
def formatDateKey (d : Nat) : Nat :=
  d / msPerDay

/-- The `MemoryStore.updateTaskIndexes`. -/
def updateTaskIndexes (s : Store) (t : Task) : Store :=
  let s1 := { s with byList := bucketAdd s.byList t.list_id t.id }
  let s2 := { s1 with byStatus := bucketAdd s1.byStatus t.status t.id }
  let s3 := { s2 with byPriority := bucketAdd s2.byPriority t.priority t.id }
  match t.deadline with
  | some d => { s3 with byDeadline := bucketAdd s3.byDeadline (formatDateKey d) t.id }
  | none => s3

/-- The `MemoryStore.removeTaskFromIndexes`. -/
def removeTaskFromIndexes (s : Store) (t : Task) : Store :=
  let s1 := { s with byList := bucketDel s.byList t.list_id t.id }
  let s2 := { s1 with byStatus := bucketDel s1.byStatus t.status t.id }
  let s3 := { s2 with byPriority := bucketDel s2.byPriority t.priority t.id }
  match t.deadline with
  | some d => { s3 with byDeadline := bucketDel s3.byDeadline (formatDateKey d) t.id }
  | none => s3

/-- The `MemoryStore.updateListTaskCount`: recompute `tasks_count` from the by-list index. -/
def updateListTaskCount (s : Store) (listId : String) (now : Nat) : Store :=
  match mapGet s.lists listId with
  | none => s
  | some l =>
    let cnt := (bucketOf s.byList listId).length
    { s with lists := mapSet s.lists listId { l with tasks_count := cnt, updated_at := now } }

/-- The `MemoryStore.checkCapacity`: reject once `lists.size + tasks.size >= maxSize`. -/
def checkCapacity (s : Store) : Option StoreError :=
  let totalEntities := s.lists.length + s.tasks.length
  if s.maxSize ≤ totalEntities then
    some (.capacityExceeded s.maxSize totalEntities)
  else
    none

/-- The `MemoryStore.createList`. An error is paired with the untouched state. -/
def storeCreateList (s : Store) (l : ListRec) : Option StoreError × Store :=
  match checkCapacity s with
  | some e => (some e, s)
  | none => (none, { s with lists := mapSet s.lists l.id l })

/-- The `MemoryStore.createTask`. -/
def storeCreateTask (s : Store) (t : Task) (now : Nat) : Option StoreError × Store :=
  match checkCapacity s with
  | some e => (some e, s)
  | none =>
    let s1 := { s with tasks := mapSet s.tasks t.id t }
    let s2 := updateTaskIndexes s1 t
    let s3 := updateListTaskCount s2 t.list_id now
    (none, s3)

/--
A `Partial<Task>` patch as passed to `MemoryStore.updateTask`.
A `none` field is an absent key, which JavaScript spread leaves unchanged.
`updated_at` sent by callers is always overwritten by the store.
-/
structure TaskPatch where
  list_id : Option String := none
  title : Option String := none
  description : Option String := none
  deadline : Option Nat := none
  priority : Option TaskPriority := none
  status : Option TaskStatus := none
  completed_at : Option Nat := none
  created_at : Option Nat := none
  updated_at : Option Nat := none
deriving DecidableEq, Repr

/-- The `{ ...existingTask, ...updates, id, updated_at: new Date() }`. -/
def mergeTaskPatch (existing : Task) (p : TaskPatch) (id : String) (now : Nat) : Task :=
  { id := id
    list_id := p.list_id.getD existing.list_id
    title := p.title.getD existing.title
    description := match p.description with
      | some d => some d
      | none => existing.description
    deadline := match p.deadline with
      | some d => some d
      | none => existing.deadline
    priority := p.priority.getD existing.priority
    status := p.status.getD existing.status
    completed_at := match p.completed_at with
      | some c => some c
      | none => existing.completed_at
    created_at := p.created_at.getD existing.created_at
    updated_at := now }

/-- JavaScript truthiness of an optional string (`undefined` and `""` are falsy). -/
def strTruthy (o : Option String) : Bool :=
  match o with
  | some v => v ≠ ""
  | none => false

/--
The updated task record computed by `MemoryStore.updateTask`: the merged
patch, then the two `completed_at` adjustments (set on a transition into
completed, removed whenever the patch sets status pending).
-/
def patchedTask (existing : Task) (p : TaskPatch) (id : String) (now : Nat) : Task :=
  let base := mergeTaskPatch existing p id now
  let t1 := if p.status = some .completed ∧ existing.status ≠ .completed then
      { base with completed_at := some now }
    else
      base
  if p.status = some .pending then { t1 with completed_at := none } else t1

/-- The `MemoryStore.updateTask`. -/
def storeUpdateTask (s : Store) (id : String) (p : TaskPatch) (now : Nat) : Bool × Store :=
  match mapGet s.tasks id with
  | none => (false, s)
  | some existing =>
    let s1 := removeTaskFromIndexes s existing
    let t2 := patchedTask existing p id now
    let s2 := { s1 with tasks := mapSet s1.tasks id t2 }
    let s3 := updateTaskIndexes s2 t2
    let s4 := if strTruthy p.list_id ∧ p.list_id ≠ some existing.list_id then
        updateListTaskCount (updateListTaskCount s3 existing.list_id now)
          (p.list_id.getD existing.list_id) now
      else
        s3
    (true, s4)

/-- The `MemoryStore.deleteTask`. -/
def storeDeleteTask (s : Store) (id : String) (now : Nat) : Bool × Store :=
  match mapGet s.tasks id with
  | none => (false, s)
  | some t =>
    let s1 := removeTaskFromIndexes s t
    let s2 := { s1 with tasks := mapDel s1.tasks id }
    let s3 := updateListTaskCount s2 t.list_id now
    (true, s3)

/-- The `MemoryStore.deleteList`; the cascade iterates the by-list bucket. -/
def storeDeleteList (s : Store) (id : String) (deleteAssociatedTasks : Bool) (now : Nat) :
    Bool × Store :=
  match mapGet s.lists id with
  | none => (false, s)
  | some _ =>
    let s1 := if deleteAssociatedTasks then
        (bucketOf s.byList id).foldl (fun acc tid => (storeDeleteTask acc tid now).2) s
      else
        s
    (true, { s1 with lists := mapDel s1.lists id })

/-- A `Partial<List>` patch as accepted by `MemoryStore.updateList`. -/
structure ListPatch where
  name : Option String := none
  description : Option String := none
  color : Option String := none
  tasks_count : Option Nat := none
deriving DecidableEq, Repr

/-- The `{ ...existingList, ...updates, id, updated_at: new Date() }`. -/
def mergeListPatch (existing : ListRec) (p : ListPatch) (id : String) (now : Nat) : ListRec :=
  { id := id
    name := p.name.getD existing.name
    description := match p.description with
      | some d => some d
      | none => existing.description
    color := match p.color with
      | some c => some c
      | none => existing.color
    tasks_count := p.tasks_count.getD existing.tasks_count
    created_at := existing.created_at
    updated_at := now }

/-- The `MemoryStore.updateList`. -/
def storeUpdateList (s : Store) (id : String) (p : ListPatch) (now : Nat) : Bool × Store :=
  match mapGet s.lists id with
  | none => (false, s)
  | some existing =>
    (true, { s with lists := mapSet s.lists id (mergeListPatch existing p id now) })

/-- The `MemoryStore.getAllTasks`. -/
def storeGetAllTasks (s : Store) : List Task :=
  s.tasks.map Prod.snd

/-- The `MemoryStore.getAllLists`. -/
def storeGetAllLists (s : Store) : List ListRec :=
  s.lists.map Prod.snd

/-- The `MemoryStore.getTasksByListId`. -/
def storeGetTasksByListId (s : Store) (listId : String) : List Task :=
  (bucketOf s.byList listId).filterMap (fun i => mapGet s.tasks i)

/-- The tasks collected from one deadline day-bucket. -/
def deadlineBucketTasks (s : Store) (key : Nat) : List Task :=
  (bucketOf s.byDeadline key).filterMap (fun i => mapGet s.tasks i)

/--
The `while (currentDate <= toDate)` loop of
`MemoryStore.getTasksByDeadlineRange`: visit the day-bucket of the
current timestamp, then advance by one day.
-/
def collectDeadlineRange (s : Store) (current toDate : Nat) : List Task :=
  if current ≤ toDate then
    deadlineBucketTasks s (formatDateKey current) ++ collectDeadlineRange s (current + msPerDay) toDate
  else
    []
termination_by toDate + msPerDay - current
decreasing_by simp only [msPerDay]; omega

/-- The `MemoryStore.getTasksByDeadlineRange`. -/
def getTasksByDeadlineRange (s : Store) (fromDate toDate : Nat) : List Task :=
  collectDeadlineRange s fromDate toDate

/-! ### String helpers (case-insensitive `includes`) -/

/-- The `needle` begins the character list `hay`. -/
def charsStart : List Char → List Char → Bool
  | [], _ => true
  | _ :: _, [] => false
  | a :: as, b :: bs => a == b && charsStart as bs

/-- The `String.prototype.includes` on character lists. -/
def charsContains (hay needle : List Char) : Bool :=
  (List.range (hay.length + 1)).any (fun i => charsStart needle (hay.drop i))

/-- The `String.prototype.toLowerCase` as a character list. -/
def lowerChars (s : String) : List Char :=
  s.toList.map Char.toLower

/-! ### Query pipeline inputs (src/models/entities.ts) -/

structure SortParams where
  field : String
  order : String
deriving DecidableEq, Repr

structure TaskFilterParams where
  list_id : Option String := none
  status : Option TaskStatus := none
  priority : Option TaskPriority := none
  deadline_from : Option Nat := none
  deadline_to : Option Nat := none
  search : Option String := none
deriving DecidableEq, Repr

structure ListFilterParams where
  search : Option String := none
deriving DecidableEq, Repr

structure CreateTaskInput where
  list_id : String
  title : String
  description : Option String := none
  deadline : Option Nat := none
  priority : Option TaskPriority := none
deriving DecidableEq, Repr

structure UpdateTaskInput where
  title : Option String := none
  description : Option String := none
  deadline : Option Nat := none
  priority : Option TaskPriority := none
  status : Option TaskStatus := none
  list_id : Option String := none
deriving DecidableEq, Repr

structure CreateListInput where
  name : String
  description : Option String := none
  color : Option String := none
deriving DecidableEq, Repr

structure UpdateListInput where
  name : Option String := none
  description : Option String := none
  color : Option String := none
deriving DecidableEq, Repr

/-! ### Task query pipeline (`TaskRepository`, src/controllers/index.ts) -/

/--
The predicate of `TaskRepository.applyFilters`: the body of the
`tasks.filter` callback with its early `return false` chain.
-/
def taskMatchesFilters (f : TaskFilterParams) (t : Task) : Bool :=
  let fromViolated : Bool := match f.deadline_from, t.deadline with
    | some a, some d => decide (d < a)
    | _, _ => false
  let toViolated : Bool := match f.deadline_to, t.deadline with
    | some b, some d => decide (b < d)
    | _, _ => false
  if strTruthy f.list_id ∧ f.list_id ≠ some t.list_id then false
  else if f.status.isSome ∧ f.status ≠ some t.status then false
  else if f.priority.isSome ∧ f.priority ≠ some t.priority then false
  else if fromViolated then false
  else if toViolated then false
  else if strTruthy f.search then
    let term := lowerChars (f.search.getD "")
    let titleMatch := charsContains (lowerChars t.title) term
    let descriptionMatch := match t.description with
      | some d => charsContains (lowerChars d) term
      | none => false
    titleMatch || descriptionMatch
  else true

/-- The `TaskRepository.applyFilters`. -/
def applyTaskFilters (tasks : List Task) (f : TaskFilterParams) : List Task :=
  tasks.filter (taskMatchesFilters f)

/-- The string value of a status, as compared by `localeCompare`. -/
def statusString : TaskStatus → String
  | .pending => "pending"
  | .completed => "completed"

/-- The `a.localeCompare(b)` modelled as lexicographic string comparison. -/
def cmpStr (a b : String) : Int :=
  if a < b then -1 else if b < a then 1 else 0

/-- The numeric rank used by the priority sort (`HIGH=3, MEDIUM=2, LOW=1`). -/
def priorityRank : TaskPriority → Int
  | .high => 3
  | .medium => 2
  | .low => 1

/-- The comparator body of `TaskRepository.sortTasks`. -/
def taskCompare (sort : SortParams) (a b : Task) : Int :=
  let comparison : Int :=
    if sort.field = "title" then cmpStr a.title b.title
    else if sort.field = "created_at" then (a.created_at : Int) - (b.created_at : Int)
    else if sort.field = "updated_at" then (a.updated_at : Int) - (b.updated_at : Int)
    else if sort.field = "deadline" then
      match a.deadline, b.deadline with
      | none, none => 0
      | none, some _ => 1
      | some _, none => -1
      | some da, some db => (da : Int) - (db : Int)
    else if sort.field = "priority" then priorityRank a.priority - priorityRank b.priority
    else if sort.field = "status" then cmpStr (statusString a.status) (statusString b.status)
    else (a.created_at : Int) - (b.created_at : Int)
  if sort.order = "desc" then -comparison else comparison

/--
The statements `TaskRepository.sortTasks`: `Array.prototype.sort` with the comparator,
modelled as a stable sort by the relation "comparator is non-positive".
-/
def sortTasks (tasks : List Task) (sort : SortParams) : List Task :=
  tasks.insertionSort (fun a b => taskCompare sort a b ≤ 0)

/-- The `TaskRepository.getAllTasks`: returns the page slice and the filtered total. -/
def repoGetAllTasks (s : Store) (filters : Option TaskFilterParams) (sort : Option SortParams)
    (limit offset : Option Nat) : List Task × Nat :=
  let tasks0 := storeGetAllTasks s
  let tasks1 := match filters with
    | some f => applyTaskFilters tasks0 f
    | none => tasks0
  let filteredTotal := tasks1.length
  let tasks2 := match sort with
    | some so => sortTasks tasks1 so
    | none => sortTasks tasks1 { field := "created_at", order := "desc" }
  let tasks3 := match limit, offset with
    | some l, some o => (tasks2.drop o).take l
    | _, _ => tasks2
  (tasks3, filteredTotal)

/-- The task record built by `TaskRepository.createTask` (status pending,
default priority medium, trimmed strings, no `completed_at`). -/
def builtTask (input : CreateTaskInput) (freshId : String) (now : Nat) : Task :=
  { id := freshId
    list_id := input.list_id
    title := input.title.trim
    description := if strTruthy input.description then
        some ((input.description.getD "").trim)
      else
        none
    deadline := input.deadline
    priority := input.priority.getD .medium
    status := .pending
    completed_at := none
    created_at := now
    updated_at := now }

/-- The `TaskRepository.createTask` (list-existence check, then store insert). -/
def repoCreateTask (s : Store) (input : CreateTaskInput) (freshId : String) (now : Nat) :
    Except StoreError Task × Store :=
  match mapGet s.lists input.list_id with
  | none => (.error (.notFound input.list_id), s)
  | some _ =>
    match storeCreateTask s (builtTask input freshId now) now with
    | (some e, s') => (.error e, s')
    | (none, s') => (.ok (builtTask input freshId now), s')

/-- The `Partial<Task>` built by `TaskRepository.updateTask` from its input. -/
def patchOfUpdateInput (input : UpdateTaskInput) (now : Nat) : TaskPatch :=
  { list_id := input.list_id
    title := input.title.map (fun v => if v.isEmpty then v else v.trim)
    description := input.description.map (fun v => if v.isEmpty then v else v.trim)
    deadline := input.deadline
    priority := input.priority
    status := input.status
    completed_at := none
    created_at := none
    updated_at := some now }

/-- The `TaskRepository.updateTask` (existence check, move-target check, store update). -/
def repoUpdateTask (s : Store) (id : String) (input : UpdateTaskInput) (now : Nat) :
    Except StoreError (Option Task) × Store :=
  match mapGet s.tasks id with
  | none => (.ok none, s)
  | some existing =>
    if strTruthy input.list_id ∧ input.list_id ≠ some existing.list_id ∧
        (mapGet s.lists (input.list_id.getD "")).isNone then
      (.error (.notFound (input.list_id.getD "")), s)
    else
      match storeUpdateTask s id (patchOfUpdateInput input now) now with
      | (false, s') => (.ok none, s')
      | (true, s') => (.ok (mapGet s'.tasks id), s')

/-- The `TaskRepository.deleteTask`. -/
def repoDeleteTask (s : Store) (id : String) (now : Nat) : Bool × Store :=
  match mapGet s.tasks id with
  | none => (false, s)
  | some _ => storeDeleteTask s id now

/-- The patch sent by `TaskRepository.completeTask`. -/
def completePatch (now : Nat) : TaskPatch :=
  { status := some .completed, completed_at := some now, updated_at := some now }

/-- The `TaskRepository.completeTask`: no-op when the task is already completed. -/
def repoCompleteTask (s : Store) (id : String) (now : Nat) : Option Task × Store :=
  match mapGet s.tasks id with
  | none => (none, s)
  | some existing =>
    if existing.status = .completed then
      (some existing, s)
    else
      match storeUpdateTask s id (completePatch now) now with
      | (false, s') => (none, s')
      | (true, s') => (mapGet s'.tasks id, s')

/-- The patch sent by `TaskRepository.uncompleteTask`: the whole existing
task spread into an object, status pending, `completed_at` key deleted. -/
def uncompletePatch (existing : Task) (now : Nat) : TaskPatch :=
  { list_id := some existing.list_id
    title := some existing.title
    description := existing.description
    deadline := existing.deadline
    priority := some existing.priority
    status := some .pending
    completed_at := none
    created_at := some existing.created_at
    updated_at := some now }

/--
The statements `TaskRepository.uncompleteTask`: spreads the whole existing task, deletes
`completed_at`, and sends the result as the patch.
-/
def repoUncompleteTask (s : Store) (id : String) (now : Nat) : Option Task × Store :=
  match mapGet s.tasks id with
  | none => (none, s)
  | some existing =>
    if existing.status = .pending then
      (some existing, s)
    else
      match storeUpdateTask s id (uncompletePatch existing now) now with
      | (false, s') => (none, s')
      | (true, s') => (mapGet s'.tasks id, s')

/-! ### List query pipeline (`ListRepository`, src/repositories/listRepository.ts) -/

/-- The predicate of the search filter in `ListRepository.getAllLists`. -/
def listMatchesSearch (term : List Char) (l : ListRec) : Bool :=
  charsContains (lowerChars l.name) term ||
    (match l.description with
     | some d => charsContains (lowerChars d) term
     | none => false)

/-- The search-filter step of `ListRepository.getAllLists`. -/
def listApplySearch (lists : List ListRec) (filters : Option ListFilterParams) : List ListRec :=
  match filters with
  | some f =>
    if strTruthy f.search then
      lists.filter (listMatchesSearch (lowerChars (f.search.getD "")))
    else
      lists
  | none => lists

/-- The comparator body of `ListRepository.sortLists`. -/
def listCompare (sort : SortParams) (a b : ListRec) : Int :=
  let comparison : Int :=
    if sort.field = "name" then cmpStr a.name b.name
    else if sort.field = "created_at" then (a.created_at : Int) - (b.created_at : Int)
    else if sort.field = "updated_at" then (a.updated_at : Int) - (b.updated_at : Int)
    else if sort.field = "tasks_count" then (a.tasks_count : Int) - (b.tasks_count : Int)
    else (a.created_at : Int) - (b.created_at : Int)
  if sort.order = "desc" then -comparison else comparison

/-- The `ListRepository.sortLists`. -/
def sortLists (lists : List ListRec) (sort : SortParams) : List ListRec :=
  lists.insertionSort (fun a b => listCompare sort a b ≤ 0)

/--
The statements `ListRepository.getAllLists`. NOTE (faithful to the source): `total` is
read from `lists.length` BEFORE the search filter runs, so the returned
total is the unfiltered store size.
-/
def repoGetAllLists (s : Store) (filters : Option ListFilterParams) (sort : Option SortParams)
    (limit offset : Option Nat) : List ListRec × Nat :=
  let lists0 := storeGetAllLists s
  let total := lists0.length
  let lists1 := listApplySearch lists0 filters
  let lists2 := match sort with
    | some so => sortLists lists1 so
    | none => sortLists lists1 { field := "created_at", order := "desc" }
  let lists3 := match limit, offset with
    | some l, some o => (lists2.drop o).take l
    | _, _ => lists2
  (lists3, total)

/-- The list record built by `ListRepository.createList` (`tasks_count` 0,
trimmed name and description). -/
def builtList (input : CreateListInput) (freshId : String) (now : Nat) : ListRec :=
  { id := freshId
    name := input.name.trim
    description := if strTruthy input.description then
        some ((input.description.getD "").trim)
      else
        none
    color := if strTruthy input.color then input.color else none
    tasks_count := 0
    created_at := now
    updated_at := now }

/-- The `ListRepository.createList` (build record, duplicate-name check, store insert). -/
def repoCreateList (s : Store) (input : CreateListInput) (freshId : String) (now : Nat) :
    Except StoreError ListRec × Store :=
  if s.lists.any (fun p => lowerChars p.2.name == lowerChars (builtList input freshId now).name) then
    (.error (.conflict (builtList input freshId now).name), s)
  else
    match storeCreateList s (builtList input freshId now) with
    | (some e, s') => (.error e, s')
    | (none, s') => (.ok (builtList input freshId now), s')

/-- The `Partial<List>` built by `ListRepository.updateList` from its input
(no `tasks_count` key; trimmed strings). -/
def listPatchOfInput (input : UpdateListInput) : ListPatch :=
  { name := input.name.map (fun v => if v.isEmpty then v else v.trim)
    description := input.description.map (fun v => if v.isEmpty then v else v.trim)
    color := input.color
    tasks_count := none }

/-- The `ListRepository.updateList` (duplicate-name check on rename, store update). -/
def repoUpdateList (s : Store) (id : String) (input : UpdateListInput) (now : Nat) :
    Except StoreError (Option ListRec) × Store :=
  match mapGet s.lists id with
  | none => (.ok none, s)
  | some _ =>
    if strTruthy input.name ∧
        s.lists.any (fun p =>
          p.1 ≠ id ∧ lowerChars p.2.name == lowerChars ((input.name.getD "").trim)) then
      (.error (.conflict ((input.name.getD "").trim)), s)
    else
      match storeUpdateList s id (listPatchOfInput input) now with
      | (false, s') => (.ok none, s')
      | (true, s') => (.ok (mapGet s'.lists id), s')

/-- The `ListRepository.deleteList`. -/
def repoDeleteList (s : Store) (id : String) (deleteAssociatedTasks : Bool) (now : Nat) :
    Bool × Store :=
  match mapGet s.lists id with
  | none => (false, s)
  | some _ => storeDeleteList s id deleteAssociatedTasks now

/-- Bool test that an id sits in the bucket named by an optional key. -/
def keyMem {K : Type} [DecidableEq K] (m : List (K × List String)) (o : Option K)
    (i : String) : Bool :=
  match o with
  | none => true
  | some k => decide (i ∈ bucketOf m k)

/--
One secondary index is consistent with the task map: bucket keys are
distinct, buckets are duplicate-free, every bucket member is the id of a
stored task whose key field names that bucket, and every stored task's id
sits in the bucket named by its key field.
-/
def IndexOk {K : Type} [DecidableEq K] (tasks : List (String × Task))
    (m : List (K × List String)) (key : Task → Option K) : Prop :=
  keysNodup m ∧
  (∀ p ∈ m, p.2.Nodup) ∧
  (∀ p ∈ m, ∀ i ∈ p.2, ∃ q ∈ tasks, q.1 = i ∧ key q.2 = some p.1) ∧
  (∀ q ∈ tasks, keyMem m (key q.2) q.1 = true)

/-- The optional-key form of one `updateTaskIndexes` step. -/
def bucketAddOpt {K : Type} [DecidableEq K] (m : List (K × List String)) (o : Option K)
    (i : String) : List (K × List String) :=
  match o with
  | some k => bucketAdd m k i
  | none => m

/-- The optional-key form of one `removeTaskFromIndexes` step. -/
def bucketDelOpt {K : Type} [DecidableEq K] (m : List (K × List String)) (o : Option K)
    (i : String) : List (K × List String) :=
  match o with
  | some k => bucketDel m k i
  | none => m

/-- Key of the by-list index. -/
def keyOfList (t : Task) : Option String :=
  some t.list_id

/-- Key of the by-status index. -/
def keyOfStatus (t : Task) : Option TaskStatus :=
  some t.status

/-- Key of the by-priority index. -/
def keyOfPriority (t : Task) : Option TaskPriority :=
  some t.priority

/-- Key of the by-deadline index (absent when the task has no deadline). -/
def keyOfDeadline (t : Task) : Option Nat :=
  t.deadline.map formatDateKey

/--
Spec invariant 3: the task map has distinct keys equal to the task ids,
and all four secondary indexes are consistent with it.
-/
def IndexWF (s : Store) : Prop :=
  keysNodup s.tasks ∧
  (∀ q ∈ s.tasks, q.2.id = q.1) ∧
  IndexOk s.tasks s.byList keyOfList ∧
  IndexOk s.tasks s.byStatus keyOfStatus ∧
  IndexOk s.tasks s.byPriority keyOfPriority ∧
  IndexOk s.tasks s.byDeadline keyOfDeadline

/-- The mid-create store: new task stored and indexed, count not yet updated. -/
def createdStore (s : Store) (t : Task) : Store :=
  updateTaskIndexes { s with tasks := mapSet s.tasks t.id t } t

/-- The mid-update store: patched task stored, both reindex steps done. -/
def reindexedStore (s : Store) (existing : Task) (id : String) (p : TaskPatch) (now : Nat) :
    Store :=
  updateTaskIndexes
    { removeTaskFromIndexes s existing with
        tasks := mapSet (removeTaskFromIndexes s existing).tasks id (patchedTask existing p id now) }
    (patchedTask existing p id now)

/-- The mid-delete store: task deindexed and removed, count not yet updated. -/
def removedStore (s : Store) (t : Task) (id : String) : Store :=
  { removeTaskFromIndexes s t with tasks := mapDel (removeTaskFromIndexes s t).tasks id }

instance decKeysNodup {K V : Type} [DecidableEq K] (m : List (K × V)) :
    Decidable (keysNodup m) := by
  unfold keysNodup
  infer_instance

instance decIndexOk {K : Type} [DecidableEq K] (tasks : List (String × Task))
    (m : List (K × List String)) (key : Task → Option K) : Decidable (IndexOk tasks m key) := by
  unfold IndexOk
  infer_instance

instance decIndexWF (s : Store) : Decidable (IndexWF s) := by
  unfold IndexWF
  infer_instance

/-- The number of task records whose `list_id` is the given list id. -/
def countTasksInList (tasks : List (String × Task)) (k : String) : Nat :=
  (tasks.filter (fun q => q.2.list_id = k)).length

/--
Spec invariant 2: list keys are distinct and every stored list's
`tasks_count` equals the number of task records referencing it.
-/
def CountWF (s : Store) : Prop :=
  keysNodup s.lists ∧ ∀ p ∈ s.lists, p.2.tasks_count = countTasksInList s.tasks p.1

instance decCountWF (s : Store) : Decidable (CountWF s) := by
  unfold CountWF
  infer_instance

/-- Sample list record used by the concrete witnesses. -/
def wList : ListRec :=
  { id := "l1", name := "Work", description := none, color := none,
    tasks_count := 1, created_at := 0, updated_at := 0 }

/-- Sample task (pending, priority high, deadline 600ms past midnight of day 0). -/
def wTask : Task :=
  { id := "t1", list_id := "l1", title := "Report", description := none,
    deadline := some 600, priority := .high, status := .pending,
    completed_at := none, created_at := 0, updated_at := 0 }

/-- A second task, not yet stored, used as a fresh insert. -/
def wTask2 : Task :=
  { id := "t2", list_id := "l1", title := "Mail", description := none,
    deadline := none, priority := .medium, status := .pending,
    completed_at := none, created_at := 0, updated_at := 0 }

/-- A small well-formed store: one list, one task, all four indexes filled. -/
def wStore : Store :=
  { lists := [("l1", wList)], tasks := [("t1", wTask)],
    byList := [("l1", ["t1"])], byStatus := [(.pending, ["t1"])],
    byPriority := [(.high, ["t1"])], byDeadline := [(0, ["t1"])],
    maxSize := 10000 }

/-- Second sample list, not stored in `wStore`. -/
def wList2 : ListRec :=
  { id := "l2", name := "Home", description := none, color := none,
    tasks_count := 0, created_at := 0, updated_at := 0 }

/-- The `wStore` with capacity already reached (2 records, maxSize 2). -/
def wFullStore : Store :=
  { wStore with maxSize := 2 }

/-- A completed task with `completed_at` set. -/
def wTaskDone : Task :=
  { id := "t3", list_id := "l1", title := "Done", description := none,
    deadline := none, priority := .low, status := .completed,
    completed_at := some 3, created_at := 0, updated_at := 3 }

/-- A well-formed store holding the completed task. -/
def wStoreDone : Store :=
  { lists := [("l1", { wList with tasks_count := 1 })], tasks := [("t3", wTaskDone)],
    byList := [("l1", ["t3"])], byStatus := [(.completed, ["t3"])],
    byPriority := [(.low, ["t3"])], byDeadline := [],
    maxSize := 10000 }

/-- Spec invariant 4: `completed_at` present iff `status == completed`. -/
def CompWF (s : Store) : Prop :=
  ∀ q ∈ s.tasks, (q.2.completed_at.isSome ↔ q.2.status = TaskStatus.completed)

instance decCompWF (s : Store) : Decidable (CompWF s) := by
  unfold CompWF
  infer_instance

/-- Spec invariant 1: every task's `list_id` refers to a stored list. -/
def RefWF (s : Store) : Prop :=
  ∀ q ∈ s.tasks, (mapGet s.lists q.2.list_id).isSome

instance decRefWF (s : Store) : Decidable (RefWF s) := by
  unfold RefWF
  infer_instance

/-- A store with two lists ("Work", "Home") and no tasks. -/
def wStoreL : Store :=
  { lists := [("l1", wList), ("l2", wList2)], tasks := [], byList := [], byStatus := [],
    byPriority := [], byDeadline := [], maxSize := 10000 }

/--
The brute-force linear scan the claim compares against: all stored
tasks whose deadline `d` satisfies `a ≤ d ≤ b` (tasks without a deadline
never match). Modelled from the claim's own comparison.
-/
def deadlineScan (s : Store) (a b : Nat) : List Task :=
  (storeGetAllTasks s).filter (fun t =>
    match t.deadline with
    | some d => decide (a ≤ d) && decide (d ≤ b)
    | none => false)

/--
The day-granular scan the code actually implements: all stored tasks
whose deadline falls on one of the UTC calendar days the walk visits.
Starting at `a` and stepping whole days while `≤ b`, the walk visits
the days `formatDateKey a` through `formatDateKey a + (b - a) / msPerDay`
inclusive — only for midnight-aligned endpoints does the upper day
coincide with `formatDateKey b`.
-/
def deadlineDayScan (s : Store) (a b : Nat) : List Task :=
  (storeGetAllTasks s).filter (fun t =>
    match t.deadline with
    | some d => decide (formatDateKey a ≤ formatDateKey d) &&
        decide (formatDateKey d ≤ formatDateKey a + (b - a) / msPerDay)
    | none => false)

/-! ### Lemmas about the map primitives -/

theorem mapGet_mapSet {K V : Type} [DecidableEq K] (m : List (K × V)) (k k' : K) (v : V) :
    mapGet (mapSet m k v) k' = if k' = k then some v else mapGet m k' := by
  induction m with
  | nil =>
    by_cases h : k' = k
    · simp [mapSet, mapGet, h]
    · simp [mapSet, mapGet, h, Ne.symm h]
  | cons p rest ih =>
    by_cases hp : p.1 = k
    · by_cases h : k' = k
      · subst h
        simp [mapSet, mapGet, hp]
      · simp [mapSet, mapGet, hp, h, Ne.symm h]
    · by_cases hq : p.1 = k'
      · have h : ¬ k' = k := fun e => hp (hq.trans e)
        simp [mapSet, mapGet, hp, hq, h]
      · simp [mapSet, mapGet, hp, hq, ih]

theorem length_mapSet {K V : Type} [DecidableEq K] (m : List (K × V)) (k : K) (v : V) :
    (mapSet m k v).length = if (mapGet m k).isSome then m.length else m.length + 1 := by
  induction m with
  | nil => simp [mapSet, mapGet]
  | cons p rest ih =>
    by_cases hp : p.1 = k
    · simp [mapSet, mapGet, hp]
    · by_cases hg : (mapGet rest k).isSome <;> simp [mapSet, mapGet, hp, hg, ih]

theorem mapDel_eq_filter {K V : Type} [DecidableEq K] (m : List (K × V)) (k : K) :
    mapDel m k = m.filter (fun p => p.1 ≠ k) := by
  induction m with
  | nil => simp [mapDel]
  | cons p rest ih =>
    by_cases hp : p.1 = k <;> simp [mapDel, hp, ih]

theorem mapGet_mapDel {K V : Type} [DecidableEq K] (m : List (K × V)) (k k' : K) :
    mapGet (mapDel m k) k' = if k' = k then none else mapGet m k' := by
  induction m with
  | nil => simp [mapDel, mapGet]
  | cons p rest ih =>
    by_cases hp : p.1 = k
    · by_cases h : k' = k
      · subst h
        simp [mapDel, hp, ih]
      · simp [mapDel, mapGet, hp, h, Ne.symm h, ih]
    · by_cases hq : p.1 = k'
      · have h : ¬ k' = k := fun e => hp (hq.trans e)
        simp [mapDel, mapGet, hp, hq, h]
      · simp [mapDel, mapGet, hp, hq, ih]

theorem mem_mapSet {K V : Type} [DecidableEq K] {m : List (K × V)} {k : K} {v : V} {p : K × V}
    (h : p ∈ mapSet m k v) : p ∈ m ∨ p = (k, v) := by
  induction m with
  | nil => simpa [mapSet] using h
  | cons q rest ih =>
    by_cases hq : q.1 = k
    · simp only [mapSet, if_pos hq, List.mem_cons] at h
      rcases h with h | h
      · exact Or.inr h
      · exact Or.inl (List.mem_cons_of_mem _ h)
    · simp only [mapSet, if_neg hq, List.mem_cons] at h
      rcases h with h | h
      · exact Or.inl (List.mem_cons.mpr (Or.inl h))
      · rcases ih h with h' | h'
        · exact Or.inl (List.mem_cons_of_mem _ h')
        · exact Or.inr h'

theorem mem_mapDel_iff {K V : Type} [DecidableEq K] {m : List (K × V)} {k : K} {p : K × V} :
    p ∈ mapDel m k ↔ p ∈ m ∧ p.1 ≠ k := by
  rw [mapDel_eq_filter]
  simp

theorem mapGet_mem {K V : Type} [DecidableEq K] {m : List (K × V)} {k : K} {v : V}
    (h : mapGet m k = some v) : (k, v) ∈ m := by
  induction m with
  | nil => simp [mapGet] at h
  | cons p rest ih =>
    by_cases hp : p.1 = k
    · simp only [mapGet, if_pos hp] at h
      have hpv : (k, v) = p := by
        cases p
        simp_all
      exact List.mem_cons.mpr (Or.inl hpv)
    · simp only [mapGet, if_neg hp] at h
      exact List.mem_cons_of_mem _ (ih h)

theorem mapGet_eq_none_iff {K V : Type} [DecidableEq K] {m : List (K × V)} {k : K} :
    mapGet m k = none ↔ k ∉ m.map Prod.fst := by
  induction m with
  | nil => simp [mapGet]
  | cons p rest ih =>
    by_cases hp : p.1 = k
    · simp [mapGet, hp]
    · simp [mapGet, hp, ih, Ne.symm hp]

theorem mem_iff_mapGet_of_nodup {K V : Type} [DecidableEq K] {m : List (K × V)}
    (hn : keysNodup m) {k : K} {v : V} : (k, v) ∈ m ↔ mapGet m k = some v := by
  constructor
  · intro hmem
    induction m with
    | nil => simp at hmem
    | cons p rest ih =>
      rcases List.mem_cons.mp hmem with h | h
      · simp [mapGet, ← h]
      · have hp : p.1 ≠ k := by
          intro e
          have hk : k ∈ rest.map Prod.fst := List.mem_map.mpr ⟨(k, v), h, rfl⟩
          exact (List.nodup_cons.mp hn).1 (e ▸ hk)
        simp only [mapGet, if_neg hp]
        exact ih (List.nodup_cons.mp hn).2 h
  · exact mapGet_mem

theorem keys_mapSet {K V : Type} [DecidableEq K] (m : List (K × V)) (k : K) (v : V) :
    (mapSet m k v).map Prod.fst =
      if (mapGet m k).isSome then m.map Prod.fst else m.map Prod.fst ++ [k] := by
  induction m with
  | nil => simp [mapSet, mapGet]
  | cons p rest ih =>
    by_cases hp : p.1 = k
    · simp [mapSet, mapGet, hp]
    · by_cases hg : (mapGet rest k).isSome <;> simp [mapSet, mapGet, hp, hg, ih]

theorem keysNodup_mapSet {K V : Type} [DecidableEq K] {m : List (K × V)} (hn : keysNodup m)
    (k : K) (v : V) : keysNodup (mapSet m k v) := by
  unfold keysNodup at *
  rw [keys_mapSet]
  by_cases h : (mapGet m k).isSome
  · simpa [h] using hn
  · have hk : k ∉ m.map Prod.fst := by
      rw [← mapGet_eq_none_iff]
      exact Option.not_isSome_iff_eq_none.mp h
    simp only [h, if_false]
    exact List.Nodup.append hn (List.nodup_singleton k)
      (fun a ha hb => hk ((List.mem_singleton.mp hb) ▸ ha))

theorem keysNodup_mapDel {K V : Type} [DecidableEq K] {m : List (K × V)} (hn : keysNodup m)
    (k : K) : keysNodup (mapDel m k) := by
  unfold keysNodup at *
  rw [mapDel_eq_filter]
  exact List.Nodup.sublist ((List.filter_sublist m).map Prod.fst) hn

/-! ### Lemmas about the set primitives -/

theorem mem_setAdd {ids : List String} {i j : String} :
    j ∈ setAdd ids i ↔ j ∈ ids ∨ j = i := by
  unfold setAdd
  by_cases h : i ∈ ids
  · simp only [if_pos h]
    constructor
    · exact Or.inl
    · rintro (hj | rfl)
      · exact hj
      · exact h
  · simp [if_neg h]

theorem nodup_setAdd {ids : List String} (hn : ids.Nodup) (i : String) :
    (setAdd ids i).Nodup := by
  unfold setAdd
  by_cases h : i ∈ ids
  · simpa [h] using hn
  · simp only [if_neg h]
    exact List.Nodup.append hn (List.nodup_singleton i)
      (fun a ha hb => h ((List.mem_singleton.mp hb) ▸ ha))

theorem mem_setDel {ids : List String} {i j : String} :
    j ∈ setDel ids i ↔ j ∈ ids ∧ j ≠ i := by
  unfold setDel
  simp

theorem nodup_setDel {ids : List String} (hn : ids.Nodup) (i : String) :
    (setDel ids i).Nodup :=
  hn.filter _

theorem setDel_nil_mem {ids : List String} {i : String} (h : (setDel ids i).length = 0)
    {j : String} : ¬(j ∈ ids ∧ j ≠ i) := by
  intro hj
  have hm : j ∈ setDel ids i := mem_setDel.mpr hj
  rw [List.length_eq_zero.mp h] at hm
  simp at hm

/-! ### Lemmas about bucket operations -/

theorem bucketOf_bucketAdd {K : Type} [DecidableEq K] (m : List (K × List String)) (k k' : K)
    (i : String) :
    bucketOf (bucketAdd m k i) k' = if k' = k then setAdd (bucketOf m k) i else bucketOf m k' := by
  unfold bucketAdd bucketOf
  rw [mapGet_mapSet]
  by_cases h : k' = k <;> simp [h]

theorem mem_bucketOf_bucketAdd {K : Type} [DecidableEq K] {m : List (K × List String)}
    {k k' : K} {i j : String} :
    j ∈ bucketOf (bucketAdd m k i) k' ↔ j ∈ bucketOf m k' ∨ (k' = k ∧ j = i) := by
  rw [bucketOf_bucketAdd]
  by_cases h : k' = k
  · subst h
    simp [mem_setAdd]
  · simp [h]

theorem bucketOf_mapDel {K : Type} [DecidableEq K] (m : List (K × List String)) (k k' : K) :
    bucketOf (mapDel m k) k' = if k' = k then [] else bucketOf m k' := by
  unfold bucketOf
  rw [mapGet_mapDel]
  by_cases h : k' = k <;> simp [h]

theorem bucketOf_mapSet {K : Type} [DecidableEq K] (m : List (K × List String)) (k k' : K)
    (ids : List String) :
    bucketOf (mapSet m k ids) k' = if k' = k then ids else bucketOf m k' := by
  unfold bucketOf
  rw [mapGet_mapSet]
  by_cases h : k' = k <;> simp [h]

theorem mem_bucketOf_bucketDel {K : Type} [DecidableEq K] {m : List (K × List String)}
    {k k' : K} {i j : String} :
    j ∈ bucketOf (bucketDel m k i) k' ↔ j ∈ bucketOf m k' ∧ ¬(k' = k ∧ j = i) := by
  unfold bucketDel
  cases hk : mapGet m k with
  | none =>
    have hbk : bucketOf m k = [] := by simp [bucketOf, hk]
    by_cases h : k' = k
    · subst h
      simp [hbk]
    · simp [h]
  | some ids =>
    have hbk : bucketOf m k = ids := by simp [bucketOf, hk]
    simp only
    split
    · rename_i hlen
      rw [bucketOf_mapDel]
      by_cases h : k' = k
      · subst h
        rw [if_pos rfl]
        simp only [List.not_mem_nil, false_iff]
        intro hj
        exact setDel_nil_mem hlen
          ⟨hbk ▸ hj.1, fun e => hj.2 ⟨by trivial, e⟩⟩
      · simp [h]
    · rw [bucketOf_mapSet]
      by_cases h : k' = k
      · subst h
        rw [if_pos rfl, mem_setDel, hbk]
        constructor
        · exact fun hj => ⟨hj.1, fun hc => hj.2 hc.2⟩
        · exact fun hj => ⟨hj.1, fun e => hj.2 ⟨rfl, e⟩⟩
      · simp [h]

theorem bucketNodup_bucketAdd {K : Type} [DecidableEq K] {m : List (K × List String)}
    (hn : ∀ k', (bucketOf m k').Nodup) (k : K) (i : String) :
    ∀ k', (bucketOf (bucketAdd m k i) k').Nodup := by
  intro k'
  rw [bucketOf_bucketAdd]
  by_cases h : k' = k
  · simpa [h] using nodup_setAdd (hn k) i
  · simpa [h] using hn k'

theorem bucketNodup_bucketDel {K : Type} [DecidableEq K] {m : List (K × List String)}
    (hn : ∀ k', (bucketOf m k').Nodup) (k : K) (i : String) :
    ∀ k', (bucketOf (bucketDel m k i) k').Nodup := by
  intro k'
  unfold bucketDel
  cases hk : mapGet m k with
  | none => exact hn k'
  | some ids =>
    have hbk : bucketOf m k = ids := by simp [bucketOf, hk]
    simp only
    split
    · rw [bucketOf_mapDel]
      by_cases h : k' = k <;> simp [h, hn k']
    · rw [bucketOf_mapSet]
      by_cases h : k' = k
      · simpa [h] using nodup_setDel (hbk ▸ hn k) i
      · simpa [h] using hn k'

theorem keysNodup_bucketAdd {K : Type} [DecidableEq K] {m : List (K × List String)}
    (hn : keysNodup m) (k : K) (i : String) : keysNodup (bucketAdd m k i) :=
  keysNodup_mapSet hn _ _

theorem keysNodup_bucketDel {K : Type} [DecidableEq K] {m : List (K × List String)}
    (hn : keysNodup m) (k : K) (i : String) : keysNodup (bucketDel m k i) := by
  unfold bucketDel
  cases hk : mapGet m k with
  | none => exact hn
  | some ids =>
    simp only
    split
    · exact keysNodup_mapDel hn k
    · exact keysNodup_mapSet hn _ _

theorem mapSet_of_none {K V : Type} [DecidableEq K] {m : List (K × V)} {k : K}
    (h : mapGet m k = none) (v : V) : mapSet m k v = m ++ [(k, v)] := by
  induction m with
  | nil => simp [mapSet]
  | cons p rest ih =>
    by_cases hp : p.1 = k
    · simp [mapGet, hp] at h
    · simp only [mapGet, if_neg hp] at h
      simp [mapSet, hp, ih h]

theorem mem_mapSet_iff {K V : Type} [DecidableEq K] {m : List (K × V)} (hn : keysNodup m)
    {k : K} {v : V} {p : K × V} :
    p ∈ mapSet m k v ↔ (p ∈ m ∧ p.1 ≠ k) ∨ p = (k, v) := by
  induction m with
  | nil => simp [mapSet]
  | cons q rest ih =>
    have hn1 : q.1 ∉ rest.map Prod.fst := (List.nodup_cons.mp hn).1
    have hn2 : keysNodup rest := (List.nodup_cons.mp hn).2
    by_cases hq : q.1 = k
    · have hms : mapSet (q :: rest) k v = (k, v) :: rest := by
        simp [mapSet, hq]
      rw [hms]
      simp only [List.mem_cons]
      constructor
      · rintro (rfl | hp)
        · exact Or.inr rfl
        · refine Or.inl ⟨Or.inr hp, fun e => ?_⟩
          exact hn1 ((e.trans hq.symm) ▸ (List.mem_map.mpr ⟨p, hp, rfl⟩))
      · rintro (⟨hp, hne⟩ | rfl)
        · rcases hp with rfl | hp
          · exact absurd hq hne
          · exact Or.inr hp
        · exact Or.inl rfl
    · have hms : mapSet (q :: rest) k v = q :: mapSet rest k v := by
        simp [mapSet, hq]
      rw [hms]
      have hqp : p = q → p.1 ≠ k := by
        intro e
        rw [e]
        exact hq
      simp only [List.mem_cons, ih hn2]
      tauto

/-! ### Consistency of one secondary index with the task map -/

theorem IndexOk.mapNodup {K : Type} [DecidableEq K] {tasks : List (String × Task)}
    {m : List (K × List String)} {key : Task → Option K} (h : IndexOk tasks m key) :
    keysNodup m :=
  h.1

theorem IndexOk.bucketNodup {K : Type} [DecidableEq K] {tasks : List (String × Task)}
    {m : List (K × List String)} {key : Task → Option K} (h : IndexOk tasks m key) :
    ∀ k', (bucketOf m k').Nodup := by
  intro k'
  unfold bucketOf
  cases hk : mapGet m k' with
  | none => simp
  | some ids => simpa using h.2.1 (k', ids) (mapGet_mem hk)

theorem IndexOk.sound {K : Type} [DecidableEq K] {tasks : List (String × Task)}
    {m : List (K × List String)} {key : Task → Option K} (h : IndexOk tasks m key)
    {k' : K} {i : String} (hi : i ∈ bucketOf m k') :
    ∃ q ∈ tasks, q.1 = i ∧ key q.2 = some k' := by
  unfold bucketOf at hi
  cases hk : mapGet m k' with
  | none =>
    rw [hk] at hi
    simp at hi
  | some ids =>
    rw [hk] at hi
    exact h.2.2.1 (k', ids) (mapGet_mem hk) i (by simpa using hi)

theorem IndexOk.complete {K : Type} [DecidableEq K] {tasks : List (String × Task)}
    {m : List (K × List String)} {key : Task → Option K} (h : IndexOk tasks m key)
    {q : String × Task} (hq : q ∈ tasks) {k' : K} (hk : key q.2 = some k') :
    q.1 ∈ bucketOf m k' := by
  have hm := h.2.2.2 q hq
  rw [hk] at hm
  simpa [keyMem] using hm

theorem IndexOk.ofParts {K : Type} [DecidableEq K] {tasks : List (String × Task)}
    {m : List (K × List String)} {key : Task → Option K}
    (h1 : keysNodup m) (h2 : ∀ k', (bucketOf m k').Nodup)
    (h3 : ∀ k' i, i ∈ bucketOf m k' → ∃ q ∈ tasks, q.1 = i ∧ key q.2 = some k')
    (h4 : ∀ q ∈ tasks, ∀ k', key q.2 = some k' → q.1 ∈ bucketOf m k') :
    IndexOk tasks m key := by
  refine ⟨h1, ?_, ?_, ?_⟩
  · intro p hp
    have hb : bucketOf m p.1 = p.2 := by
      unfold bucketOf
      cases p with
      | mk a b =>
        rw [(mem_iff_mapGet_of_nodup h1).mp hp]
        rfl
    exact hb ▸ h2 p.1
  · intro p hp i hi
    have hb : bucketOf m p.1 = p.2 := by
      unfold bucketOf
      cases p with
      | mk a b =>
        rw [(mem_iff_mapGet_of_nodup h1).mp hp]
        rfl
    exact h3 p.1 i (hb ▸ hi)
  · intro q hq
    unfold keyMem
    cases hk : key q.2 with
    | none => rfl
    | some k' => simpa using h4 q hq k' hk

theorem IndexOk.congr {K : Type} [DecidableEq K] {tasks tasks' : List (String × Task)}
    {m : List (K × List String)} {key : Task → Option K} (h : IndexOk tasks m key)
    (he : ∀ q, q ∈ tasks ↔ q ∈ tasks') : IndexOk tasks' m key := by
  obtain ⟨h1, h2, h3, h4⟩ := h
  refine ⟨h1, h2, ?_, ?_⟩
  · intro p hp i hi
    obtain ⟨q, hq, hq1, hq2⟩ := h3 p hp i hi
    exact ⟨q, (he q).mp hq, hq1, hq2⟩
  · intro q hq
    exact h4 q ((he q).mpr hq)

theorem IndexOk_insert {K : Type} [DecidableEq K] {tasks : List (String × Task)}
    {m : List (K × List String)} {key : Task → Option K} (h : IndexOk tasks m key)
    {i : String} {t : Task} (hfresh : mapGet tasks i = none) (_hid : t.id = i) :
    IndexOk (mapSet tasks i t) (bucketAddOpt m (key t) i) key := by
  have hiNotIn : ∀ k', i ∉ bucketOf m k' := by
    intro k' hi
    obtain ⟨q, hq, hq1, _⟩ := h.sound hi
    exact (mapGet_eq_none_iff.mp hfresh) (List.mem_map.mpr ⟨q, hq, hq1⟩)
  have htasks' : ∀ {q : String × Task}, q ∈ mapSet tasks i t ↔ q ∈ tasks ∨ q = (i, t) := by
    intro q
    rw [mapSet_of_none hfresh]
    simp
  cases hkey : key t with
  | none =>
    refine IndexOk.ofParts h.1 h.bucketNodup ?_ ?_
    · intro k' j hj
      obtain ⟨q, hq, hq1, hq2⟩ := h.sound hj
      exact ⟨q, htasks'.mpr (Or.inl hq), hq1, hq2⟩
    · intro q hq k' hk
      rcases htasks'.mp hq with hq | rfl
      · exact h.complete hq hk
      · have hk2 : key t = some k' := hk
        rw [hkey] at hk2
        cases hk2
  | some kt =>
    refine IndexOk.ofParts (keysNodup_bucketAdd h.1 kt i)
      (bucketNodup_bucketAdd h.bucketNodup kt i) ?_ ?_
    · intro k' j hj
      rcases mem_bucketOf_bucketAdd.mp hj with hj | ⟨he1, he2⟩
      · obtain ⟨q, hq, hq1, hq2⟩ := h.sound hj
        exact ⟨q, htasks'.mpr (Or.inl hq), hq1, hq2⟩
      · refine ⟨(i, t), htasks'.mpr (Or.inr rfl), he2.symm, ?_⟩
        rw [he1]
        exact hkey
    · intro q hq k' hk
      rcases htasks'.mp hq with hq | rfl
      · exact mem_bucketOf_bucketAdd.mpr (Or.inl (h.complete hq hk))
      · have hk2 : key t = some k' := hk
        rw [hkey] at hk2
        cases hk2
        exact mem_bucketOf_bucketAdd.mpr (Or.inr ⟨rfl, rfl⟩)

theorem IndexOk_remove {K : Type} [DecidableEq K] {tasks : List (String × Task)}
    {m : List (K × List String)} {key : Task → Option K} (h : IndexOk tasks m key)
    (hn : keysNodup tasks) {i : String} {t : Task} (hget : mapGet tasks i = some t) :
    IndexOk (mapDel tasks i) (bucketDelOpt m (key t) i) key := by
  have hkeyed : ∀ {q : String × Task}, q ∈ tasks → q.1 = i → q = (i, t) := by
    intro q hq he
    cases q with
    | mk a b =>
      cases he
      have := (mem_iff_mapGet_of_nodup hn).mp hq
      rw [hget] at this
      cases this
      rfl
  cases hkey : key t with
  | none =>
    refine IndexOk.ofParts h.1 h.bucketNodup ?_ ?_
    · intro k' j hj
      obtain ⟨q, hq, hq1, hq2⟩ := h.sound hj
      refine ⟨q, mem_mapDel_iff.mpr ⟨hq, ?_⟩, hq1, hq2⟩
      intro he
      have := hkeyed hq he
      rw [this] at hq2
      have hk2 : key t = some k' := hq2
      rw [hkey] at hk2
      cases hk2
    · intro q hq k' hk
      exact h.complete (mem_mapDel_iff.mp hq).1 hk
  | some kt =>
    refine IndexOk.ofParts (keysNodup_bucketDel h.1 kt i)
      (bucketNodup_bucketDel h.bucketNodup kt i) ?_ ?_
    · intro k' j hj
      obtain ⟨hj, hnot⟩ := mem_bucketOf_bucketDel.mp hj
      obtain ⟨q, hq, hq1, hq2⟩ := h.sound hj
      refine ⟨q, mem_mapDel_iff.mpr ⟨hq, ?_⟩, hq1, hq2⟩
      intro he
      have hqit := hkeyed hq he
      rw [hqit] at hq2
      have hk2 : key t = some k' := hq2
      rw [hkey] at hk2
      cases hk2
      exact hnot ⟨rfl, hq1.symm.trans he⟩
    · intro q hq k' hk
      obtain ⟨hq, hne⟩ := mem_mapDel_iff.mp hq
      refine mem_bucketOf_bucketDel.mpr ⟨h.complete hq hk, ?_⟩
      intro hc
      exact hne hc.2

theorem IndexOk_update {K : Type} [DecidableEq K] {tasks : List (String × Task)}
    {m : List (K × List String)} {key : Task → Option K} (h : IndexOk tasks m key)
    (hn : keysNodup tasks) {i : String} {told tnew : Task}
    (hget : mapGet tasks i = some told) (hid : tnew.id = i) :
    IndexOk (mapSet tasks i tnew) (bucketAddOpt (bucketDelOpt m (key told) i) (key tnew) i)
      key := by
  have h1 := IndexOk_remove h hn hget
  have hfresh : mapGet (mapDel tasks i) i = none := by
    rw [mapGet_mapDel]
    simp
  have h2 := IndexOk_insert h1 hfresh hid
  refine h2.congr ?_
  intro q
  rw [mapSet_of_none hfresh, mem_mapSet_iff hn]
  simp only [List.mem_append, mem_mapDel_iff, List.mem_singleton]

/-! ### The store-level index invariant -/

theorem IndexWF.id_of_get {s : Store} (h : IndexWF s) {i : String} {t : Task}
    (hget : mapGet s.tasks i = some t) : t.id = i :=
  h.2.1 (i, t) (mapGet_mem hget)

theorem updateTaskIndexes_spec (s : Store) (t : Task) :
    updateTaskIndexes s t =
      { s with
        byList := bucketAddOpt s.byList (keyOfList t) t.id
        byStatus := bucketAddOpt s.byStatus (keyOfStatus t) t.id
        byPriority := bucketAddOpt s.byPriority (keyOfPriority t) t.id
        byDeadline := bucketAddOpt s.byDeadline (keyOfDeadline t) t.id } := by
  unfold updateTaskIndexes keyOfList keyOfStatus keyOfPriority keyOfDeadline bucketAddOpt
  cases hd : t.deadline <;> simp [hd]

theorem removeTaskFromIndexes_spec (s : Store) (t : Task) :
    removeTaskFromIndexes s t =
      { s with
        byList := bucketDelOpt s.byList (keyOfList t) t.id
        byStatus := bucketDelOpt s.byStatus (keyOfStatus t) t.id
        byPriority := bucketDelOpt s.byPriority (keyOfPriority t) t.id
        byDeadline := bucketDelOpt s.byDeadline (keyOfDeadline t) t.id } := by
  unfold removeTaskFromIndexes keyOfList keyOfStatus keyOfPriority keyOfDeadline bucketDelOpt
  cases hd : t.deadline <;> simp [hd]

theorem updateListTaskCount_proj (s : Store) (listId : String) (now : Nat) :
    (updateListTaskCount s listId now).tasks = s.tasks ∧
    (updateListTaskCount s listId now).byList = s.byList ∧
    (updateListTaskCount s listId now).byStatus = s.byStatus ∧
    (updateListTaskCount s listId now).byPriority = s.byPriority ∧
    (updateListTaskCount s listId now).byDeadline = s.byDeadline ∧
    (updateListTaskCount s listId now).maxSize = s.maxSize := by
  unfold updateListTaskCount
  cases mapGet s.lists listId <;> simp

theorem indexWF_of_proj {s s' : Store} (h : IndexWF s) (ht : s'.tasks = s.tasks)
    (h1 : s'.byList = s.byList) (h2 : s'.byStatus = s.byStatus)
    (h3 : s'.byPriority = s.byPriority) (h4 : s'.byDeadline = s.byDeadline) : IndexWF s' := by
  unfold IndexWF
  rw [ht, h1, h2, h3, h4]
  exact h

theorem indexWF_updateListTaskCount {s : Store} (h : IndexWF s) (listId : String) (now : Nat) :
    IndexWF (updateListTaskCount s listId now) := by
  obtain ⟨ht, h1, h2, h3, h4, _⟩ := updateListTaskCount_proj s listId now
  exact indexWF_of_proj h ht h1 h2 h3 h4

theorem storeCreateTask_eq (s : Store) (t : Task) (now : Nat) :
    storeCreateTask s t now =
      match checkCapacity s with
      | some e => (some e, s)
      | none => (none, updateListTaskCount (createdStore s t) t.list_id now) :=
  rfl

theorem indexWF_createdStore {s : Store} (h : IndexWF s) {t : Task}
    (hfresh : mapGet s.tasks t.id = none) : IndexWF (createdStore s t) := by
  unfold createdStore
  rw [updateTaskIndexes_spec]
  obtain ⟨hn, hd, hL, hS, hP, hD⟩ := h
  refine ⟨keysNodup_mapSet hn t.id t, ?_, ?_, ?_, ?_, ?_⟩
  · intro q hq
    rcases mem_mapSet_iff hn |>.mp hq with ⟨hq, _⟩ | rfl
    · exact hd q hq
    · rfl
  · exact IndexOk_insert hL hfresh rfl
  · exact IndexOk_insert hS hfresh rfl
  · exact IndexOk_insert hP hfresh rfl
  · exact IndexOk_insert hD hfresh rfl

theorem indexWF_storeCreateTask {s : Store} (h : IndexWF s) {t : Task}
    (hfresh : mapGet s.tasks t.id = none) (now : Nat) :
    IndexWF (storeCreateTask s t now).2 := by
  rw [storeCreateTask_eq]
  cases checkCapacity s with
  | some e => exact h
  | none => exact indexWF_updateListTaskCount (indexWF_createdStore h hfresh) _ now

theorem removeTaskFromIndexes_proj (s : Store) (t : Task) :
    (removeTaskFromIndexes s t).tasks = s.tasks ∧
    (removeTaskFromIndexes s t).lists = s.lists ∧
    (removeTaskFromIndexes s t).maxSize = s.maxSize := by
  unfold removeTaskFromIndexes
  cases hd : t.deadline <;> simp [hd]

theorem updateTaskIndexes_proj (s : Store) (t : Task) :
    (updateTaskIndexes s t).tasks = s.tasks ∧
    (updateTaskIndexes s t).lists = s.lists ∧
    (updateTaskIndexes s t).maxSize = s.maxSize := by
  unfold updateTaskIndexes
  cases hd : t.deadline <;> simp [hd]

theorem storeUpdateTask_eq_some {s : Store} {id : String} {p : TaskPatch} {now : Nat}
    {existing : Task} (hget : mapGet s.tasks id = some existing) :
    storeUpdateTask s id p now =
      (true,
        if strTruthy p.list_id ∧ p.list_id ≠ some existing.list_id then
          updateListTaskCount (updateListTaskCount (reindexedStore s existing id p now)
            existing.list_id now) (p.list_id.getD existing.list_id) now
        else
          reindexedStore s existing id p now) := by
  unfold storeUpdateTask reindexedStore
  rw [hget]

theorem patchedTask_id (existing : Task) (p : TaskPatch) (id : String) (now : Nat) :
    (patchedTask existing p id now).id = id := by
  by_cases h1 : p.status = some TaskStatus.pending <;>
    by_cases h2 : p.status = some TaskStatus.completed ∧ existing.status ≠ TaskStatus.completed <;>
      simp [patchedTask, h1, h2, mergeTaskPatch]

theorem reindexedStore_proj (s : Store) (existing : Task) (id : String) (p : TaskPatch)
    (now : Nat) :
    reindexedStore s existing id p now =
      { lists := s.lists
        tasks := mapSet s.tasks id (patchedTask existing p id now)
        byList := bucketAddOpt (bucketDelOpt s.byList (keyOfList existing) existing.id)
          (keyOfList (patchedTask existing p id now)) id
        byStatus := bucketAddOpt (bucketDelOpt s.byStatus (keyOfStatus existing) existing.id)
          (keyOfStatus (patchedTask existing p id now)) id
        byPriority := bucketAddOpt (bucketDelOpt s.byPriority (keyOfPriority existing) existing.id)
          (keyOfPriority (patchedTask existing p id now)) id
        byDeadline := bucketAddOpt (bucketDelOpt s.byDeadline (keyOfDeadline existing) existing.id)
          (keyOfDeadline (patchedTask existing p id now)) id
        maxSize := s.maxSize } := by
  unfold reindexedStore
  rw [updateTaskIndexes_spec, removeTaskFromIndexes_spec]
  simp [patchedTask_id]

theorem indexWF_reindexedStore {s : Store} (h : IndexWF s) {id : String} {existing : Task}
    (hget : mapGet s.tasks id = some existing) (p : TaskPatch) (now : Nat) :
    IndexWF (reindexedStore s existing id p now) := by
  have hexid : existing.id = id := h.id_of_get hget
  have hid2 := patchedTask_id existing p id now
  obtain ⟨hn, hd, hL, hS, hP, hD⟩ := h
  rw [reindexedStore_proj, hexid]
  refine ⟨keysNodup_mapSet hn id _, ?_, ?_, ?_, ?_, ?_⟩
  · intro q hq
    rcases mem_mapSet_iff hn |>.mp hq with ⟨hq, _⟩ | rfl
    · exact hd q hq
    · exact hid2
  · exact IndexOk_update hL hn hget hid2
  · exact IndexOk_update hS hn hget hid2
  · exact IndexOk_update hP hn hget hid2
  · exact IndexOk_update hD hn hget hid2

theorem indexWF_storeUpdateTask {s : Store} (h : IndexWF s) (id : String) (p : TaskPatch)
    (now : Nat) : IndexWF (storeUpdateTask s id p now).2 := by
  cases hget : mapGet s.tasks id with
  | none =>
    unfold storeUpdateTask
    rw [hget]
    exact h
  | some existing =>
    rw [storeUpdateTask_eq_some hget]
    have hcore := indexWF_reindexedStore h hget p now
    simp only
    split
    · exact indexWF_updateListTaskCount (indexWF_updateListTaskCount hcore _ now) _ now
    · exact hcore

theorem storeDeleteTask_eq_some {s : Store} {id : String} {now : Nat} {t : Task}
    (hget : mapGet s.tasks id = some t) :
    storeDeleteTask s id now = (true, updateListTaskCount (removedStore s t id) t.list_id now) := by
  unfold storeDeleteTask removedStore
  rw [hget]

theorem removedStore_proj {s : Store} (t : Task) (id : String) :
    removedStore s t id =
      { lists := s.lists
        tasks := mapDel s.tasks id
        byList := bucketDelOpt s.byList (keyOfList t) t.id
        byStatus := bucketDelOpt s.byStatus (keyOfStatus t) t.id
        byPriority := bucketDelOpt s.byPriority (keyOfPriority t) t.id
        byDeadline := bucketDelOpt s.byDeadline (keyOfDeadline t) t.id
        maxSize := s.maxSize } := by
  unfold removedStore
  rw [removeTaskFromIndexes_spec]

theorem indexWF_removedStore {s : Store} (h : IndexWF s) {id : String} {t : Task}
    (hget : mapGet s.tasks id = some t) : IndexWF (removedStore s t id) := by
  have hexid : t.id = id := h.id_of_get hget
  obtain ⟨hn, hd, hL, hS, hP, hD⟩ := h
  rw [removedStore_proj, hexid]
  refine ⟨keysNodup_mapDel hn id, ?_, ?_, ?_, ?_, ?_⟩
  · intro q hq
    exact hd q (mem_mapDel_iff.mp hq).1
  · exact IndexOk_remove hL hn hget
  · exact IndexOk_remove hS hn hget
  · exact IndexOk_remove hP hn hget
  · exact IndexOk_remove hD hn hget

theorem indexWF_storeDeleteTask {s : Store} (h : IndexWF s) (id : String) (now : Nat) :
    IndexWF (storeDeleteTask s id now).2 := by
  cases hget : mapGet s.tasks id with
  | none =>
    unfold storeDeleteTask
    rw [hget]
    exact h
  | some t =>
    rw [storeDeleteTask_eq_some hget]
    exact indexWF_updateListTaskCount (indexWF_removedStore h hget) _ now

theorem indexWF_foldDelete {s : Store} (h : IndexWF s) (ids : List String) (now : Nat) :
    IndexWF (ids.foldl (fun acc tid => (storeDeleteTask acc tid now).2) s) := by
  induction ids generalizing s with
  | nil => exact h
  | cons a rest ih =>
    simp only [List.foldl_cons]
    exact ih (indexWF_storeDeleteTask h a now)

theorem indexWF_storeDeleteList {s : Store} (h : IndexWF s) (id : String) (casc : Bool)
    (now : Nat) : IndexWF (storeDeleteList s id casc now).2 := by
  unfold storeDeleteList
  cases mapGet s.lists id with
  | none => exact h
  | some l =>
    simp only
    have hmid : IndexWF (if casc then
        (bucketOf s.byList id).foldl (fun acc tid => (storeDeleteTask acc tid now).2) s
      else s) := by
      split
      · exact indexWF_foldDelete h _ now
      · exact h
    exact indexWF_of_proj hmid rfl rfl rfl rfl rfl

/-! ### Task counting (`tasks_count` invariant) -/

theorem mapDel_of_none {K V : Type} [DecidableEq K] {m : List (K × V)} {k : K}
    (h : mapGet m k = none) : mapDel m k = m := by
  rw [mapDel_eq_filter]
  apply List.filter_eq_self.mpr
  intro p hp
  have hk := mapGet_eq_none_iff.mp h
  simp only [ne_eq, decide_eq_true_eq]
  intro e
  exact hk (e ▸ List.mem_map.mpr ⟨p, hp, rfl⟩)

theorem count_mapSet_fresh {tasks : List (String × Task)} {i : String}
    (hfresh : mapGet tasks i = none) (t : Task) (k : String) :
    countTasksInList (mapSet tasks i t) k =
      countTasksInList tasks k + (if t.list_id = k then 1 else 0) := by
  unfold countTasksInList
  rw [mapSet_of_none hfresh, List.filter_append, List.length_append]
  by_cases h : t.list_id = k <;> simp [h]

theorem count_mapSet_replace {tasks : List (String × Task)} (hn : keysNodup tasks)
    {i : String} {told : Task} (hget : mapGet tasks i = some told) (tnew : Task) (k : String) :
    countTasksInList (mapSet tasks i tnew) k + (if told.list_id = k then 1 else 0) =
      countTasksInList tasks k + (if tnew.list_id = k then 1 else 0) := by
  induction tasks with
  | nil => simp [mapGet] at hget
  | cons q rest ih =>
    have hn2 : keysNodup rest := (List.nodup_cons.mp hn).2
    by_cases hq : q.1 = i
    · simp only [mapGet, if_pos hq] at hget
      cases hget
      have hms : mapSet (q :: rest) i tnew = (i, tnew) :: rest := by
        simp [mapSet, hq]
      rw [hms]
      unfold countTasksInList
      by_cases h1 : tnew.list_id = k <;> by_cases h2 : q.2.list_id = k <;>
        simp [List.filter_cons, h1, h2] <;> try omega
    · simp only [mapGet, if_neg hq] at hget
      have hms : mapSet (q :: rest) i tnew = q :: mapSet rest i tnew := by
        simp [mapSet, hq]
      rw [hms]
      have := ih hn2 hget
      unfold countTasksInList at *
      by_cases h2 : q.2.list_id = k <;> simp [List.filter_cons, h2] <;> try omega

theorem count_mapDel {tasks : List (String × Task)} (hn : keysNodup tasks)
    {i : String} {told : Task} (hget : mapGet tasks i = some told) (k : String) :
    countTasksInList (mapDel tasks i) k + (if told.list_id = k then 1 else 0) =
      countTasksInList tasks k := by
  induction tasks with
  | nil => simp [mapGet] at hget
  | cons q rest ih =>
    have hn1 : q.1 ∉ rest.map Prod.fst := (List.nodup_cons.mp hn).1
    have hn2 : keysNodup rest := (List.nodup_cons.mp hn).2
    by_cases hq : q.1 = i
    · simp only [mapGet, if_pos hq] at hget
      cases hget
      have hmd : mapDel (q :: rest) i = rest := by
        have hrest : mapGet rest i = none := by
          rw [mapGet_eq_none_iff]
          exact hq ▸ hn1
        simp [mapDel, hq, mapDel_of_none hrest]
      rw [hmd]
      unfold countTasksInList
      by_cases h2 : q.2.list_id = k <;> simp [List.filter_cons, h2] <;> try omega
    · simp only [mapGet, if_neg hq] at hget
      have hmd : mapDel (q :: rest) i = q :: mapDel rest i := by
        simp [mapDel, hq]
      rw [hmd]
      have := ih hn2 hget
      unfold countTasksInList at *
      by_cases h2 : q.2.list_id = k <;> simp [List.filter_cons, h2] <;> try omega

theorem count_mapSet_same_list {tasks : List (String × Task)} (hn : keysNodup tasks)
    {i : String} {told : Task} (hget : mapGet tasks i = some told) {tnew : Task}
    (hsame : tnew.list_id = told.list_id) (k : String) :
    countTasksInList (mapSet tasks i tnew) k = countTasksInList tasks k := by
  have := count_mapSet_replace hn hget tnew k
  rw [hsame] at this
  omega

/-- With consistent indexes, a by-list bucket's size is the number of task
records referencing the list. -/
theorem bucketLen_eq_count {s : Store} (h : IndexWF s) (k : String) :
    (bucketOf s.byList k).length = countTasksInList s.tasks k := by
  obtain ⟨hn, _, hL, _, _, _⟩ := h
  have hnodup1 : (bucketOf s.byList k).Nodup := hL.bucketNodup k
  have hnodup2 : ((s.tasks.filter (fun q => q.2.list_id = k)).map Prod.fst).Nodup :=
    List.Nodup.sublist ((List.filter_sublist s.tasks).map Prod.fst) hn
  have hmem : ∀ i, i ∈ bucketOf s.byList k ↔
      i ∈ (s.tasks.filter (fun q => q.2.list_id = k)).map Prod.fst := by
    intro i
    constructor
    · intro hi
      obtain ⟨q, hq, hq1, hq2⟩ := hL.sound hi
      have hlid : q.2.list_id = k := by
        have : keyOfList q.2 = some k := hq2
        unfold keyOfList at this
        exact Option.some.inj this
      exact List.mem_map.mpr ⟨q, List.mem_filter.mpr ⟨hq, by simp [hlid]⟩, hq1⟩
    · intro hi
      obtain ⟨q, hq, hq1⟩ := List.mem_map.mp hi
      obtain ⟨hq, hfk⟩ := List.mem_filter.mp hq
      have hkey : keyOfList q.2 = some k := by
        unfold keyOfList
        simpa using hfk
      exact hq1 ▸ hL.complete hq hkey
  have hperm := (List.perm_ext_iff_of_nodup hnodup1 hnodup2).mpr hmem
  rw [hperm.length_eq, List.length_map]
  rfl

/-- The "status round-trip": an id sits in a status bucket iff the task
exists with that status (spec §8, index/store consistency round-trip). -/
theorem statusBucket_iff {s : Store} (h : IndexWF s) (st : TaskStatus) (i : String) :
    i ∈ bucketOf s.byStatus st ↔ ∃ u, mapGet s.tasks i = some u ∧ u.status = st := by
  constructor
  · intro hi
    obtain ⟨q, hq, hq1, hq2⟩ := h.2.2.2.1.sound hi
    have hst : q.2.status = st := by
      have : keyOfStatus q.2 = some st := hq2
      unfold keyOfStatus at this
      exact Option.some.inj this
    refine ⟨q.2, ?_, hst⟩
    rw [← hq1]
    exact (mem_iff_mapGet_of_nodup h.1).mp (by cases q; exact hq)
  · rintro ⟨u, hget, rfl⟩
    exact h.2.2.2.1.complete (mapGet_mem hget) rfl

/-! ### `tasks_count` preservation through the store operations -/

theorem patchedTask_list_id (existing : Task) (p : TaskPatch) (id : String) (now : Nat) :
    (patchedTask existing p id now).list_id = p.list_id.getD existing.list_id := by
  by_cases h1 : p.status = some TaskStatus.pending <;>
    by_cases h2 : p.status = some TaskStatus.completed ∧ existing.status ≠ TaskStatus.completed <;>
      simp [patchedTask, h1, h2, mergeTaskPatch]

/--
Recomputing one list's count fixes that list and preserves every other
correct count; the `ex` set carries lists whose counts are still pending.
-/
theorem updateListTaskCount_count {s : Store} (hI : IndexWF s) (hn : keysNodup s.lists)
    (listId : String) (now : Nat) (ex : List String)
    (hothers : ∀ p ∈ s.lists, p.1 ≠ listId → p.1 ∉ ex →
      p.2.tasks_count = countTasksInList s.tasks p.1) :
    keysNodup (updateListTaskCount s listId now).lists ∧
    ∀ p ∈ (updateListTaskCount s listId now).lists, p.1 ∉ ex →
      p.2.tasks_count = countTasksInList (updateListTaskCount s listId now).tasks p.1 := by
  unfold updateListTaskCount
  cases hget : mapGet s.lists listId with
  | none =>
    refine ⟨hn, ?_⟩
    intro p hp hex
    refine hothers p hp ?_ hex
    intro e
    exact (mapGet_eq_none_iff.mp hget) (e ▸ List.mem_map.mpr ⟨p, hp, rfl⟩)
  | some l =>
    simp only
    refine ⟨keysNodup_mapSet hn _ _, ?_⟩
    intro p hp hex
    rcases mem_mapSet_iff hn |>.mp hp with ⟨hp, hne⟩ | rfl
    · exact hothers p hp hne hex
    · exact bucketLen_eq_count hI listId

theorem countWF_storeCreateTask {s : Store} (hI : IndexWF s) (hC : CountWF s) {t : Task}
    (hfresh : mapGet s.tasks t.id = none) (now : Nat) :
    CountWF (storeCreateTask s t now).2 := by
  rw [storeCreateTask_eq]
  cases checkCapacity s with
  | some e => exact hC
  | none =>
    have hI1 := indexWF_createdStore hI hfresh
    have hlists : (createdStore s t).lists = s.lists := by
      unfold createdStore
      exact (updateTaskIndexes_proj _ _).2.1
    have htasks : (createdStore s t).tasks = mapSet s.tasks t.id t := by
      unfold createdStore
      exact (updateTaskIndexes_proj _ _).1
    have hres := updateListTaskCount_count hI1 (by rw [hlists]; exact hC.1) t.list_id now []
      (by
        intro q hq hne _
        rw [htasks, count_mapSet_fresh hfresh, if_neg (fun e => hne e.symm)]
        have := hC.2 q (hlists ▸ hq)
        omega)
    exact ⟨hres.1, fun q hq => hres.2 q hq (by simp)⟩

theorem countWF_storeUpdateTask {s : Store} (hI : IndexWF s) (hC : CountWF s) (id : String)
    {p : TaskPatch} (now : Nat)
    (hp : p.list_id = some "" → ∀ u, mapGet s.tasks id = some u → u.list_id = "") :
    CountWF (storeUpdateTask s id p now).2 := by
  cases hget : mapGet s.tasks id with
  | none =>
    unfold storeUpdateTask
    rw [hget]
    exact hC
  | some existing =>
    rw [storeUpdateTask_eq_some hget]
    simp only
    have hI1 := indexWF_reindexedStore hI hget p now
    have hlists : (reindexedStore s existing id p now).lists = s.lists := by
      rw [reindexedStore_proj]
    have htasks : (reindexedStore s existing id p now).tasks =
        mapSet s.tasks id (patchedTask existing p id now) := by
      rw [reindexedStore_proj]
    have hlid := patchedTask_list_id existing p id now
    split
    · rename_i hcond
      obtain ⟨htr, hne⟩ := hcond
      obtain ⟨l, hl⟩ : ∃ l, p.list_id = some l := by
        cases hpl : p.list_id with
        | none =>
          rw [hpl] at htr
          simp [strTruthy] at htr
        | some l => exact ⟨l, rfl⟩
      have hgetd : p.list_id.getD existing.list_id = l := by
        rw [hl]
        rfl
      have ht2l : (patchedTask existing p id now).list_id = l := by
        rw [hlid, hgetd]
      have h1 := updateListTaskCount_count hI1 (by rw [hlists]; exact hC.1)
        existing.list_id now [l]
        (by
          intro q hq hne1 hne2
          have hne2' : q.1 ≠ l := by
            intro e
            exact hne2 (by simp [e])
          rw [htasks]
          have hrep := count_mapSet_replace hI.1 hget (patchedTask existing p id now) q.1
          rw [ht2l, if_neg (fun e => hne1 e.symm), if_neg (fun e => hne2' e.symm)] at hrep
          have := hC.2 q (hlists ▸ hq)
          omega)
      have hI2 := indexWF_updateListTaskCount hI1 existing.list_id now
      have h2 := updateListTaskCount_count hI2 h1.1 l now []
        (by
          intro q hq hne1 _
          exact h1.2 q hq (by simp [hne1]))
      rw [hgetd]
      exact ⟨h2.1, fun q hq => h2.2 q hq (by simp)⟩
    · rename_i hcond
      have hsame : (patchedTask existing p id now).list_id = existing.list_id := by
        rw [hlid]
        cases hpl : p.list_id with
        | none => rfl
        | some l =>
          by_cases hemp : l = ""
          · subst hemp
            have := hp hpl existing hget
            simp [this]
          · have htr : strTruthy p.list_id = true := by
              rw [hpl]
              simp [strTruthy, hemp]
            have : p.list_id = some existing.list_id := by
              by_contra hneq
              exact hcond ⟨htr, hneq⟩
            rw [hpl] at this
            cases this
            rfl
      refine ⟨by rw [hlists]; exact hC.1, ?_⟩
      intro q hq
      rw [htasks, count_mapSet_same_list hI.1 hget hsame]
      exact hC.2 q (hlists ▸ hq)

theorem countWF_storeDeleteTask {s : Store} (hI : IndexWF s) (hC : CountWF s) (id : String)
    (now : Nat) : CountWF (storeDeleteTask s id now).2 := by
  cases hget : mapGet s.tasks id with
  | none =>
    unfold storeDeleteTask
    rw [hget]
    exact hC
  | some t =>
    rw [storeDeleteTask_eq_some hget]
    have hI1 := indexWF_removedStore hI hget
    have hlists : (removedStore s t id).lists = s.lists := by
      rw [removedStore_proj]
    have htasks : (removedStore s t id).tasks = mapDel s.tasks id := by
      rw [removedStore_proj]
    have hres := updateListTaskCount_count hI1 (by rw [hlists]; exact hC.1) t.list_id now []
      (by
        intro q hq hne _
        rw [htasks]
        have h0 := count_mapDel hI.1 hget q.1
        rw [if_neg (fun e => hne e.symm)] at h0
        have h1 := hC.2 q (hlists ▸ hq)
        omega)
    exact ⟨hres.1, fun q hq => hres.2 q hq (by simp)⟩

theorem wf_foldDelete {s : Store} (hI : IndexWF s) (hC : CountWF s) (ids : List String)
    (now : Nat) :
    IndexWF (ids.foldl (fun acc tid => (storeDeleteTask acc tid now).2) s) ∧
    CountWF (ids.foldl (fun acc tid => (storeDeleteTask acc tid now).2) s) := by
  induction ids generalizing s with
  | nil => exact ⟨hI, hC⟩
  | cons a rest ih =>
    simp only [List.foldl_cons]
    exact ih (indexWF_storeDeleteTask hI a now) (countWF_storeDeleteTask hI hC a now)

theorem countWF_storeDeleteList {s : Store} (hI : IndexWF s) (hC : CountWF s) (id : String)
    (casc : Bool) (now : Nat) : CountWF (storeDeleteList s id casc now).2 := by
  unfold storeDeleteList
  cases mapGet s.lists id with
  | none => exact hC
  | some l =>
    simp only
    have hmid : CountWF (if casc then
        (bucketOf s.byList id).foldl (fun acc tid => (storeDeleteTask acc tid now).2) s
      else s) := by
      split
      · exact (wf_foldDelete hI hC _ now).2
      · exact hC
    obtain ⟨hn1, hc1⟩ := hmid
    refine ⟨keysNodup_mapDel hn1 id, ?_⟩
    intro q hq
    exact hc1 q (mem_mapDel_iff.mp hq).1

theorem countWF_storeCreateList {s : Store} (hC : CountWF s) {l : ListRec}
    (hzero : l.tasks_count = 0)
    (hnoref : countTasksInList s.tasks l.id = 0) :
    CountWF (storeCreateList s l).2 := by
  unfold storeCreateList
  cases checkCapacity s with
  | some e => exact hC
  | none =>
    simp only
    refine ⟨keysNodup_mapSet hC.1 _ _, ?_⟩
    intro q hq
    rcases mem_mapSet_iff hC.1 |>.mp hq with ⟨hq, _⟩ | rfl
    · exact hC.2 q hq
    · rw [hzero, hnoref]

theorem countWF_storeUpdateList {s : Store} (hC : CountWF s) (id : String) {pl : ListPatch}
    (hpt : pl.tasks_count = none) (now : Nat) : CountWF (storeUpdateList s id pl now).2 := by
  unfold storeUpdateList
  cases hget : mapGet s.lists id with
  | none => exact hC
  | some existing =>
    simp only
    refine ⟨keysNodup_mapSet hC.1 _ _, ?_⟩
    intro q hq
    rcases mem_mapSet_iff hC.1 |>.mp hq with ⟨hq, _⟩ | rfl
    · exact hC.2 q hq
    · have hcnt : (mergeListPatch existing pl id now).tasks_count = existing.tasks_count := by
        unfold mergeListPatch
        rw [hpt]
        rfl
      have hex := hC.2 (id, existing) (mapGet_mem hget)
      exact hcnt.trans hex

theorem indexWF_storeCreateList {s : Store} (h : IndexWF s) (l : ListRec) :
    IndexWF (storeCreateList s l).2 := by
  unfold storeCreateList
  cases checkCapacity s with
  | some e => exact h
  | none => exact indexWF_of_proj h rfl rfl rfl rfl rfl

theorem indexWF_storeUpdateList {s : Store} (h : IndexWF s) (id : String) (pl : ListPatch)
    (now : Nat) : IndexWF (storeUpdateList s id pl now).2 := by
  unfold storeUpdateList
  cases mapGet s.lists id with
  | none => exact h
  | some existing => exact indexWF_of_proj h rfl rfl rfl rfl rfl

/-! ### Lifting the invariants through the repository operations -/

theorem repoCreateList_snd (s : Store) (input : CreateListInput) (freshId : String)
    (now : Nat) :
    (repoCreateList s input freshId now).2 =
      if s.lists.any (fun p =>
          lowerChars p.2.name == lowerChars (builtList input freshId now).name) then s
      else (storeCreateList s (builtList input freshId now)).2 := by
  unfold repoCreateList
  split
  · rfl
  · rcases hr : storeCreateList s (builtList input freshId now) with ⟨oe, s'⟩
    cases oe <;> rfl

theorem repoCreateTask_snd (s : Store) (input : CreateTaskInput) (freshId : String)
    (now : Nat) :
    (repoCreateTask s input freshId now).2 =
      match mapGet s.lists input.list_id with
      | none => s
      | some _ => (storeCreateTask s (builtTask input freshId now) now).2 := by
  unfold repoCreateTask
  cases mapGet s.lists input.list_id with
  | none => rfl
  | some _ =>
    simp only
    rcases hr : storeCreateTask s (builtTask input freshId now) now with ⟨oe, s'⟩
    cases oe <;> rfl

theorem repoUpdateTask_snd_some {s : Store} {id : String} {input : UpdateTaskInput} {now : Nat}
    {existing : Task} (hget : mapGet s.tasks id = some existing) :
    (repoUpdateTask s id input now).2 =
      if strTruthy input.list_id ∧ input.list_id ≠ some existing.list_id ∧
          (mapGet s.lists (input.list_id.getD "")).isNone then s
      else (storeUpdateTask s id (patchOfUpdateInput input now) now).2 := by
  simp only [repoUpdateTask, hget]
  split
  · rfl
  · rcases hr : storeUpdateTask s id (patchOfUpdateInput input now) now with ⟨b, s'⟩
    cases b <;> rfl

theorem repoCompleteTask_snd_some {s : Store} {id : String} {now : Nat} {existing : Task}
    (hget : mapGet s.tasks id = some existing) :
    (repoCompleteTask s id now).2 =
      if existing.status = .completed then s
      else (storeUpdateTask s id (completePatch now) now).2 := by
  simp only [repoCompleteTask, hget]
  split
  · rfl
  · rcases hr : storeUpdateTask s id (completePatch now) now with ⟨b, s'⟩
    cases b <;> rfl

theorem repoUncompleteTask_snd_some {s : Store} {id : String} {now : Nat} {existing : Task}
    (hget : mapGet s.tasks id = some existing) :
    (repoUncompleteTask s id now).2 =
      if existing.status = .pending then s
      else (storeUpdateTask s id (uncompletePatch existing now) now).2 := by
  simp only [repoUncompleteTask, hget]
  split
  · rfl
  · rcases hr : storeUpdateTask s id (uncompletePatch existing now) now with ⟨b, s'⟩
    cases b <;> rfl

theorem repoUpdateList_snd_some {s : Store} {id : String} {input : UpdateListInput} {now : Nat}
    {existing : ListRec} (hget : mapGet s.lists id = some existing) :
    (repoUpdateList s id input now).2 =
      if strTruthy input.name ∧ s.lists.any (fun p =>
          p.1 ≠ id ∧ lowerChars p.2.name == lowerChars ((input.name.getD "").trim)) then s
      else (storeUpdateList s id (listPatchOfInput input) now).2 := by
  simp only [repoUpdateList, hget]
  split
  · rfl
  · rcases hr : storeUpdateList s id (listPatchOfInput input) now with ⟨b, s'⟩
    cases b <;> rfl

theorem repoDeleteTask_snd (s : Store) (id : String) (now : Nat) :
    (repoDeleteTask s id now).2 = (storeDeleteTask s id now).2 := by
  cases hget : mapGet s.tasks id with
  | none => simp only [repoDeleteTask, storeDeleteTask, hget]
  | some _ => simp only [repoDeleteTask, hget]

theorem repoDeleteList_snd (s : Store) (id : String) (casc : Bool) (now : Nat) :
    (repoDeleteList s id casc now).2 = (storeDeleteList s id casc now).2 := by
  cases hget : mapGet s.lists id with
  | none => simp only [repoDeleteList, storeDeleteList, hget]
  | some _ => simp only [repoDeleteList, hget]

theorem wf3_repoCreateList {s : Store} (hI : IndexWF s) (hC : CountWF s)
    (input : CreateListInput) (freshId : String)
    (hnoref : countTasksInList s.tasks freshId = 0) (now : Nat) :
    IndexWF (repoCreateList s input freshId now).2 ∧
      CountWF (repoCreateList s input freshId now).2 := by
  rw [repoCreateList_snd]
  split
  · exact ⟨hI, hC⟩
  · exact ⟨indexWF_storeCreateList hI _, countWF_storeCreateList hC rfl hnoref⟩

theorem wf3_repoCreateTask {s : Store} (hI : IndexWF s) (hC : CountWF s)
    (input : CreateTaskInput) (freshId : String) (hfresh : mapGet s.tasks freshId = none)
    (now : Nat) :
    IndexWF (repoCreateTask s input freshId now).2 ∧
      CountWF (repoCreateTask s input freshId now).2 := by
  rw [repoCreateTask_snd]
  cases mapGet s.lists input.list_id with
  | none => exact ⟨hI, hC⟩
  | some _ =>
    exact ⟨indexWF_storeCreateTask hI hfresh now, countWF_storeCreateTask hI hC hfresh now⟩

theorem wf3_repoUpdateTask {s : Store} (hI : IndexWF s) (hC : CountWF s) (id : String)
    {input : UpdateTaskInput} (hui : input.list_id ≠ some "") (now : Nat) :
    IndexWF (repoUpdateTask s id input now).2 ∧ CountWF (repoUpdateTask s id input now).2 := by
  cases hget : mapGet s.tasks id with
  | none =>
    unfold repoUpdateTask
    rw [hget]
    exact ⟨hI, hC⟩
  | some existing =>
    rw [repoUpdateTask_snd_some hget]
    split
    · exact ⟨hI, hC⟩
    · exact ⟨indexWF_storeUpdateTask hI id _ now,
        countWF_storeUpdateTask hI hC id now (fun h => absurd h hui)⟩

theorem wf3_repoDeleteTask {s : Store} (hI : IndexWF s) (hC : CountWF s) (id : String)
    (now : Nat) :
    IndexWF (repoDeleteTask s id now).2 ∧ CountWF (repoDeleteTask s id now).2 := by
  rw [repoDeleteTask_snd]
  exact ⟨indexWF_storeDeleteTask hI id now, countWF_storeDeleteTask hI hC id now⟩

theorem wf3_repoCompleteTask {s : Store} (hI : IndexWF s) (hC : CountWF s) (id : String)
    (now : Nat) :
    IndexWF (repoCompleteTask s id now).2 ∧ CountWF (repoCompleteTask s id now).2 := by
  cases hget : mapGet s.tasks id with
  | none =>
    unfold repoCompleteTask
    rw [hget]
    exact ⟨hI, hC⟩
  | some existing =>
    rw [repoCompleteTask_snd_some hget]
    split
    · exact ⟨hI, hC⟩
    · exact ⟨indexWF_storeUpdateTask hI id _ now,
        countWF_storeUpdateTask hI hC id now (fun h => by cases h)⟩

theorem wf3_repoUncompleteTask {s : Store} (hI : IndexWF s) (hC : CountWF s) (id : String)
    (now : Nat) :
    IndexWF (repoUncompleteTask s id now).2 ∧ CountWF (repoUncompleteTask s id now).2 := by
  cases hget : mapGet s.tasks id with
  | none =>
    unfold repoUncompleteTask
    rw [hget]
    exact ⟨hI, hC⟩
  | some existing =>
    rw [repoUncompleteTask_snd_some hget]
    split
    · exact ⟨hI, hC⟩
    · refine ⟨indexWF_storeUpdateTask hI id _ now,
        countWF_storeUpdateTask hI hC id now ?_⟩
      intro h u hu
      have he : existing.list_id = "" := by
        have : (uncompletePatch existing now).list_id = some "" := h
        unfold uncompletePatch at this
        exact Option.some.inj this
      rw [hget] at hu
      cases hu
      exact he

theorem wf3_repoUpdateList {s : Store} (hI : IndexWF s) (hC : CountWF s) (id : String)
    (input : UpdateListInput) (now : Nat) :
    IndexWF (repoUpdateList s id input now).2 ∧ CountWF (repoUpdateList s id input now).2 := by
  cases hget : mapGet s.lists id with
  | none =>
    unfold repoUpdateList
    rw [hget]
    exact ⟨hI, hC⟩
  | some existing =>
    rw [repoUpdateList_snd_some hget]
    split
    · exact ⟨hI, hC⟩
    · exact ⟨indexWF_storeUpdateList hI id _ now, countWF_storeUpdateList hC id rfl now⟩

theorem wf3_repoDeleteList {s : Store} (hI : IndexWF s) (hC : CountWF s) (id : String)
    (casc : Bool) (now : Nat) :
    IndexWF (repoDeleteList s id casc now).2 ∧ CountWF (repoDeleteList s id casc now).2 := by
  rw [repoDeleteList_snd]
  exact ⟨indexWF_storeDeleteList hI id casc now, countWF_storeDeleteList hI hC id casc now⟩

/-! ### Concrete sample data for witnesses -/

theorem indexWF_emptyStore (mx : Nat) : IndexWF (emptyStore mx) := by
  refine ⟨?_, ?_, ?_, ?_, ?_, ?_⟩ <;> simp [emptyStore, keysNodup, IndexOk]

theorem countWF_emptyStore (mx : Nat) : CountWF (emptyStore mx) := by
  refine ⟨?_, ?_⟩ <;> simp [emptyStore, keysNodup, CountWF]

/-! ### Claim C2 -/

/--
Claim C2 (invariants, spec §4.2 / §8): after every store operation —
`createTask` of a task with a fresh generated id, `updateTask`,
`deleteTask`, and `deleteList` with its cascade — the index invariant
`IndexWF` is preserved: every existing task id sits in exactly the
buckets named by its current `list_id`, `status`, `priority` and (when
present) deadline day, never in a stale bucket. In particular, in any
well-formed store, `by_status[st]` contains an id iff the task exists
and its current status is `st`.
-/
theorem C2_index_bucket_consistency (s : Store) (h : IndexWF s) (t : Task)
    (hfresh : mapGet s.tasks t.id = none) (id lid : String) (p : TaskPatch) (casc : Bool)
    (now : Nat) :
    IndexWF (storeCreateTask s t now).2 ∧
    IndexWF (storeUpdateTask s id p now).2 ∧
    IndexWF (storeDeleteTask s id now).2 ∧
    IndexWF (storeDeleteList s lid casc now).2 ∧
    (∀ st i, i ∈ bucketOf s.byStatus st ↔ ∃ u, mapGet s.tasks i = some u ∧ u.status = st) :=
  ⟨indexWF_storeCreateTask h hfresh now, indexWF_storeUpdateTask h id p now,
   indexWF_storeDeleteTask h id now, indexWF_storeDeleteList h lid casc now,
   fun st i => statusBucket_iff h st i⟩

theorem C2_index_bucket_consistency_witness :
    IndexWF (storeCreateTask wStore wTask2 7).2 ∧
    IndexWF (storeUpdateTask wStore "t1" { status := some .completed } 7).2 ∧
    IndexWF (storeDeleteTask wStore "t1" 7).2 ∧
    IndexWF (storeDeleteList wStore "l1" true 7).2 ∧
    (∀ st i, i ∈ bucketOf wStore.byStatus st ↔
      ∃ u, mapGet wStore.tasks i = some u ∧ u.status = st) :=
  C2_index_bucket_consistency wStore (by decide) wTask2 (by decide) "t1" "l1"
    { status := some .completed } true 7

/-! ### Claim C3 -/

/--
Claim C3 (invariants, spec §3 invariant 2): the pair of invariants
`IndexWF ∧ CountWF` holds in a freshly constructed store and is
preserved by every public repository operation on lists and tasks
(create/update/delete of both, completion and un-completion, cascading
and non-cascading list deletion, task moves between lists being part of
`repoUpdateTask`). The `CountWF` part is the claim: every stored list's
`tasks_count` equals the number of task records whose `list_id` is that
list. Hypotheses mirror the public interface: generated ids are fresh
(`hnoref`, `hftid`) and a patched `list_id` is schema-validated to be a
non-empty UUID (`hui`).
-/
theorem C3_tasks_count_matches (s : Store) (hI : IndexWF s) (hC : CountWF s)
    (li : CreateListInput) (flid : String) (hnoref : countTasksInList s.tasks flid = 0)
    (ti : CreateTaskInput) (ftid : String) (hftid : mapGet s.tasks ftid = none)
    (uid : String) (ui : UpdateTaskInput) (hui : ui.list_id ≠ some "")
    (ulid : String) (uli : UpdateListInput) (dtid dlid cid pid : String) (casc : Bool)
    (mx now : Nat) :
    (IndexWF (emptyStore mx) ∧ CountWF (emptyStore mx)) ∧
    (IndexWF (repoCreateList s li flid now).2 ∧ CountWF (repoCreateList s li flid now).2) ∧
    (IndexWF (repoCreateTask s ti ftid now).2 ∧ CountWF (repoCreateTask s ti ftid now).2) ∧
    (IndexWF (repoUpdateTask s uid ui now).2 ∧ CountWF (repoUpdateTask s uid ui now).2) ∧
    (IndexWF (repoUpdateList s ulid uli now).2 ∧ CountWF (repoUpdateList s ulid uli now).2) ∧
    (IndexWF (repoDeleteTask s dtid now).2 ∧ CountWF (repoDeleteTask s dtid now).2) ∧
    (IndexWF (repoDeleteList s dlid casc now).2 ∧ CountWF (repoDeleteList s dlid casc now).2) ∧
    (IndexWF (repoCompleteTask s cid now).2 ∧ CountWF (repoCompleteTask s cid now).2) ∧
    (IndexWF (repoUncompleteTask s pid now).2 ∧ CountWF (repoUncompleteTask s pid now).2) :=
  ⟨⟨indexWF_emptyStore mx, countWF_emptyStore mx⟩,
   wf3_repoCreateList hI hC li flid hnoref now,
   wf3_repoCreateTask hI hC ti ftid hftid now,
   wf3_repoUpdateTask hI hC uid hui now,
   wf3_repoUpdateList hI hC ulid uli now,
   wf3_repoDeleteTask hI hC dtid now,
   wf3_repoDeleteList hI hC dlid casc now,
   wf3_repoCompleteTask hI hC cid now,
   wf3_repoUncompleteTask hI hC pid now⟩

theorem C3_tasks_count_matches_witness :
    (IndexWF (emptyStore 10) ∧ CountWF (emptyStore 10)) ∧
    (IndexWF (repoCreateList wStore { name := "Home" } "l2" 7).2 ∧
      CountWF (repoCreateList wStore { name := "Home" } "l2" 7).2) ∧
    (IndexWF (repoCreateTask wStore { list_id := "l1", title := "Mail" } "t2" 7).2 ∧
      CountWF (repoCreateTask wStore { list_id := "l1", title := "Mail" } "t2" 7).2) ∧
    (IndexWF (repoUpdateTask wStore "t1" { status := some .completed } 7).2 ∧
      CountWF (repoUpdateTask wStore "t1" { status := some .completed } 7).2) ∧
    (IndexWF (repoUpdateList wStore "l1" { name := some "Job" } 7).2 ∧
      CountWF (repoUpdateList wStore "l1" { name := some "Job" } 7).2) ∧
    (IndexWF (repoDeleteTask wStore "t1" 7).2 ∧ CountWF (repoDeleteTask wStore "t1" 7).2) ∧
    (IndexWF (repoDeleteList wStore "l1" true 7).2 ∧
      CountWF (repoDeleteList wStore "l1" true 7).2) ∧
    (IndexWF (repoCompleteTask wStore "t1" 7).2 ∧
      CountWF (repoCompleteTask wStore "t1" 7).2) ∧
    (IndexWF (repoUncompleteTask wStore "t1" 7).2 ∧
      CountWF (repoUncompleteTask wStore "t1" 7).2) :=
  C3_tasks_count_matches wStore (by decide) (by decide) { name := "Home" } "l2" (by decide)
    { list_id := "l1", title := "Mail" } "t2" (by decide) "t1"
    { status := some .completed } (by decide) "l1" { name := some "Job" } "t1" "l1" "t1" "t1"
    true 10 7

/-! ### Claim C4 -/

/--
Claim C4 (error handling, spec §4.3 / §8): an insert (`createList` or
`createTask`) succeeds exactly when `lists.size + tasks.size <
maxCapacity` — so a fresh-id insert grows the store by one record up to
exactly `maxCapacity` — and once the size reaches `maxCapacity` the
insert fails with `CapacityExceeded` carrying the configured maximum and
the current count, leaving both record maps untouched.
-/
theorem C4_capacity_guard (s : Store) (l : ListRec) (t : Task) (now : Nat) :
    (s.lists.length + s.tasks.length < s.maxSize →
      (storeCreateList s l).1 = none ∧
      (storeCreateTask s t now).1 = none ∧
      (mapGet s.lists l.id = none →
        (storeCreateList s l).2.lists.length = s.lists.length + 1 ∧
        (storeCreateList s l).2.tasks = s.tasks) ∧
      (mapGet s.tasks t.id = none →
        (storeCreateTask s t now).2.tasks.length = s.tasks.length + 1)) ∧
    (s.maxSize ≤ s.lists.length + s.tasks.length →
      storeCreateList s l =
        (some (.capacityExceeded s.maxSize (s.lists.length + s.tasks.length)), s) ∧
      storeCreateTask s t now =
        (some (.capacityExceeded s.maxSize (s.lists.length + s.tasks.length)), s)) := by
  constructor
  · intro hlt
    have hcap : checkCapacity s = none := by
      have hn : ¬ s.maxSize ≤ s.lists.length + s.tasks.length := by omega
      simp [checkCapacity, hn]
    refine ⟨?_, ?_, ?_, ?_⟩
    · unfold storeCreateList
      rw [hcap]
    · rw [storeCreateTask_eq, hcap]
    · intro hfresh
      unfold storeCreateList
      rw [hcap]
      refine ⟨?_, rfl⟩
      simp only
      rw [length_mapSet]
      simp [hfresh]
    · intro hfresh
      rw [storeCreateTask_eq, hcap]
      simp only
      have h1 : (updateListTaskCount (createdStore s t) t.list_id now).tasks =
          (createdStore s t).tasks := (updateListTaskCount_proj _ _ _).1
      have h2 : (createdStore s t).tasks = mapSet s.tasks t.id t := by
        unfold createdStore
        exact (updateTaskIndexes_proj _ _).1
      rw [h1, h2, length_mapSet]
      simp [hfresh]
  · intro hge
    have hcap : checkCapacity s =
        some (.capacityExceeded s.maxSize (s.lists.length + s.tasks.length)) := by
      simp [checkCapacity, hge]
    constructor
    · unfold storeCreateList
      rw [hcap]
    · rw [storeCreateTask_eq, hcap]

theorem C4_capacity_guard_witness :
    (storeCreateList wStore wList2).1 = none ∧
    storeCreateList wFullStore wList2 =
      (some (.capacityExceeded 2 2), wFullStore) :=
  ⟨((C4_capacity_guard wStore wList2 wTask2 7).1 (by decide)).1,
   ((C4_capacity_guard wFullStore wList2 wTask2 7).2 (by decide)).1⟩

/-! ### Claim C9 -/

/--
Claim C9 (implicit, `TaskRepository.applyFilters`): a task without a
deadline is never excluded by `deadline_from`/`deadline_to` bounds — the
filter behaves on it exactly as the same filter with the deadline bounds
erased, so the task is in the filtered result iff it satisfies the other
predicates.
-/
theorem C9_no_deadline_passes_bounds (tasks : List Task) (f : TaskFilterParams) (t : Task)
    (hd : t.deadline = none) :
    taskMatchesFilters f t =
      taskMatchesFilters { f with deadline_from := none, deadline_to := none } t ∧
    (t ∈ applyTaskFilters tasks f ↔
      t ∈ tasks ∧
        taskMatchesFilters { f with deadline_from := none, deadline_to := none } t = true) := by
  have h1 : taskMatchesFilters f t =
      taskMatchesFilters { f with deadline_from := none, deadline_to := none } t := by
    rcases f with ⟨flid, fst, fpr, ffrom, fto, fsearch⟩
    unfold taskMatchesFilters
    rw [hd]
    cases ffrom <;> cases fto <;> rfl
  refine ⟨h1, ?_⟩
  unfold applyTaskFilters
  rw [List.mem_filter, h1]

theorem C9_no_deadline_passes_bounds_witness :
    taskMatchesFilters
        { status := some .pending, deadline_from := some 5, deadline_to := some 9 } wTask2 =
      taskMatchesFilters { status := some .pending } wTask2 ∧
    (wTask2 ∈ applyTaskFilters [wTask2]
        { status := some .pending, deadline_from := some 5, deadline_to := some 9 } ↔
      wTask2 ∈ [wTask2] ∧ taskMatchesFilters { status := some .pending } wTask2 = true) :=
  C9_no_deadline_passes_bounds [wTask2]
    { status := some .pending, deadline_from := some 5, deadline_to := some 9 } wTask2 rfl

/-! ### Claim C10 -/

/--
Claim C10 (algebraic, `TaskRepository.completeTask`): completing an
already-completed task is an identity — it returns the stored task and
the whole store state (records and indexes alike) unchanged; no
`updated_at` or `completed_at` refresh happens because the early return
fires before any store mutation.
-/
theorem C10_completeTask_idempotent (s : Store) (id : String) (t : Task) (now : Nat)
    (hget : mapGet s.tasks id = some t) (hst : t.status = .completed) :
    repoCompleteTask s id now = (some t, s) := by
  unfold repoCompleteTask
  rw [hget]
  simp [hst]

theorem C10_completeTask_idempotent_witness :
    repoCompleteTask wStoreDone "t3" 9 = (some wTaskDone, wStoreDone) :=
  C10_completeTask_idempotent wStoreDone "t3" wTaskDone 9 (by decide) (by decide)

/-! ### Claim C5: `completed_at` iff completed -/

/--
The patched task keeps invariant 4 as long as the patch never carries a
`completed_at` key without a `status` key — true of every patch the
repository layer builds.
-/
theorem patchedTask_comp {existing : Task} {p : TaskPatch} (id : String) (now : Nat)
    (hcomp : p.completed_at = none ∨ p.status.isSome)
    (hex : existing.completed_at.isSome ↔ existing.status = .completed) :
    ((patchedTask existing p id now).completed_at.isSome ↔
      (patchedTask existing p id now).status = .completed) := by
  cases hst : p.status with
  | none =>
    have hca : p.completed_at = none := by
      rcases hcomp with h | h
      · exact h
      · rw [hst] at h
        simp at h
    simpa [patchedTask, mergeTaskPatch, hst, hca] using hex
  | some st =>
    cases st with
    | pending => simp [patchedTask, mergeTaskPatch, hst]
    | completed =>
      by_cases hex2 : existing.status = .completed
      · cases hca : p.completed_at with
        | none => simpa [patchedTask, mergeTaskPatch, hst, hex2, hca] using hex.mpr hex2
        | some x => simp [patchedTask, mergeTaskPatch, hst, hex2, hca]
      · simp [patchedTask, mergeTaskPatch, hst, hex2]

theorem compWF_storeCreateTask {s : Store} (h : CompWF s) {t : Task}
    (ht : t.completed_at.isSome ↔ t.status = .completed) (now : Nat) :
    CompWF (storeCreateTask s t now).2 := by
  rw [storeCreateTask_eq]
  cases checkCapacity s with
  | some e => exact h
  | none =>
    intro q hq
    have h1 : (updateListTaskCount (createdStore s t) t.list_id now).tasks =
        (createdStore s t).tasks := (updateListTaskCount_proj _ _ _).1
    have h2 : (createdStore s t).tasks = mapSet s.tasks t.id t := by
      unfold createdStore
      exact (updateTaskIndexes_proj _ _).1
    rw [h1, h2] at hq
    rcases mem_mapSet hq with hq2 | rfl
    · exact h q hq2
    · exact ht

theorem compWF_storeUpdateTask {s : Store} (h : CompWF s) (id : String) {p : TaskPatch}
    (hcomp : p.completed_at = none ∨ p.status.isSome) (now : Nat) :
    CompWF (storeUpdateTask s id p now).2 := by
  cases hget : mapGet s.tasks id with
  | none =>
    unfold storeUpdateTask
    rw [hget]
    exact h
  | some existing =>
    have hex := h (id, existing) (mapGet_mem hget)
    have hcompat := @patchedTask_comp existing p id now hcomp hex
    have htasks : (reindexedStore s existing id p now).tasks =
        mapSet s.tasks id (patchedTask existing p id now) := by
      rw [reindexedStore_proj]
    rw [storeUpdateTask_eq_some hget]
    simp only
    split
    · intro q hq
      rw [(updateListTaskCount_proj _ _ _).1, (updateListTaskCount_proj _ _ _).1, htasks] at hq
      rcases mem_mapSet hq with hq2 | rfl
      · exact h q hq2
      · exact hcompat
    · intro q hq
      rw [htasks] at hq
      rcases mem_mapSet hq with hq2 | rfl
      · exact h q hq2
      · exact hcompat

theorem compWF_storeDeleteTask {s : Store} (h : CompWF s) (id : String) (now : Nat) :
    CompWF (storeDeleteTask s id now).2 := by
  cases hget : mapGet s.tasks id with
  | none =>
    unfold storeDeleteTask
    rw [hget]
    exact h
  | some t =>
    rw [storeDeleteTask_eq_some hget]
    intro q hq
    rw [(updateListTaskCount_proj _ _ _).1, removedStore_proj] at hq
    exact h q (mem_mapDel_iff.mp hq).1

theorem compWF_foldDelete {s : Store} (h : CompWF s) (ids : List String) (now : Nat) :
    CompWF (ids.foldl (fun acc tid => (storeDeleteTask acc tid now).2) s) := by
  induction ids generalizing s with
  | nil => exact h
  | cons a rest ih =>
    simp only [List.foldl_cons]
    exact ih (compWF_storeDeleteTask h a now)

theorem compWF_storeDeleteList {s : Store} (h : CompWF s) (id : String) (casc : Bool)
    (now : Nat) : CompWF (storeDeleteList s id casc now).2 := by
  unfold storeDeleteList
  cases mapGet s.lists id with
  | none => exact h
  | some l =>
    simp only
    have hmid : CompWF (if casc then
        (bucketOf s.byList id).foldl (fun acc tid => (storeDeleteTask acc tid now).2) s
      else s) := by
      split
      · exact compWF_foldDelete h _ now
      · exact h
    exact fun q hq => hmid q hq

theorem compWF_storeCreateList {s : Store} (h : CompWF s) (l : ListRec) :
    CompWF (storeCreateList s l).2 := by
  unfold storeCreateList
  cases checkCapacity s with
  | some e => exact h
  | none => exact fun q hq => h q hq

theorem compWF_storeUpdateList {s : Store} (h : CompWF s) (id : String) (pl : ListPatch)
    (now : Nat) : CompWF (storeUpdateList s id pl now).2 := by
  unfold storeUpdateList
  cases mapGet s.lists id with
  | none => exact h
  | some existing => exact fun q hq => h q hq

theorem compWF_repoCreateTask {s : Store} (h : CompWF s) (input : CreateTaskInput)
    (freshId : String) (now : Nat) : CompWF (repoCreateTask s input freshId now).2 := by
  rw [repoCreateTask_snd]
  cases mapGet s.lists input.list_id with
  | none => exact h
  | some _ => exact compWF_storeCreateTask h (by simp [builtTask]) now

theorem compWF_repoUpdateTask {s : Store} (h : CompWF s) (id : String)
    (input : UpdateTaskInput) (now : Nat) : CompWF (repoUpdateTask s id input now).2 := by
  cases hget : mapGet s.tasks id with
  | none =>
    unfold repoUpdateTask
    rw [hget]
    exact h
  | some existing =>
    rw [repoUpdateTask_snd_some hget]
    split
    · exact h
    · exact compWF_storeUpdateTask h id (Or.inl rfl) now

theorem compWF_repoCompleteTask {s : Store} (h : CompWF s) (id : String) (now : Nat) :
    CompWF (repoCompleteTask s id now).2 := by
  cases hget : mapGet s.tasks id with
  | none =>
    unfold repoCompleteTask
    rw [hget]
    exact h
  | some existing =>
    rw [repoCompleteTask_snd_some hget]
    split
    · exact h
    · exact compWF_storeUpdateTask h id (Or.inr (by simp [completePatch])) now

theorem compWF_repoUncompleteTask {s : Store} (h : CompWF s) (id : String) (now : Nat) :
    CompWF (repoUncompleteTask s id now).2 := by
  cases hget : mapGet s.tasks id with
  | none =>
    unfold repoUncompleteTask
    rw [hget]
    exact h
  | some existing =>
    rw [repoUncompleteTask_snd_some hget]
    split
    · exact h
    · exact compWF_storeUpdateTask h id (Or.inl rfl) now

theorem compWF_repoDeleteTask {s : Store} (h : CompWF s) (id : String) (now : Nat) :
    CompWF (repoDeleteTask s id now).2 := by
  rw [repoDeleteTask_snd]
  exact compWF_storeDeleteTask h id now

theorem compWF_repoDeleteList {s : Store} (h : CompWF s) (id : String) (casc : Bool)
    (now : Nat) : CompWF (repoDeleteList s id casc now).2 := by
  rw [repoDeleteList_snd]
  exact compWF_storeDeleteList h id casc now

theorem compWF_emptyStore (mx : Nat) : CompWF (emptyStore mx) := by
  intro q hq
  simp [emptyStore] at hq

/--
Claim C5 (invariants, spec §3 invariant 4): `completed_at` is present iff
the task's status is completed — the invariant holds in a fresh store
and is preserved by every public task operation: creation (pending, no
`completed_at`), partial update (`UpdateTaskInput` has no `completed_at`
key, so a caller patch can never set it independently; the store sets it
on a transition into completed and deletes it whenever the patch sets
status pending), completion, un-completion, deletion, and cascading
list deletion.
-/
theorem C5_completed_at_iff_completed (s : Store) (h : CompWF s)
    (ti : CreateTaskInput) (ftid : String) (uid : String) (ui : UpdateTaskInput)
    (cid pid dtid dlid : String) (casc : Bool) (mx now : Nat) :
    CompWF (emptyStore mx) ∧
    CompWF (repoCreateTask s ti ftid now).2 ∧
    CompWF (repoUpdateTask s uid ui now).2 ∧
    CompWF (repoCompleteTask s cid now).2 ∧
    CompWF (repoUncompleteTask s pid now).2 ∧
    CompWF (repoDeleteTask s dtid now).2 ∧
    CompWF (repoDeleteList s dlid casc now).2 :=
  ⟨compWF_emptyStore mx, compWF_repoCreateTask h ti ftid now,
   compWF_repoUpdateTask h uid ui now, compWF_repoCompleteTask h cid now,
   compWF_repoUncompleteTask h pid now, compWF_repoDeleteTask h dtid now,
   compWF_repoDeleteList h dlid casc now⟩

theorem C5_completed_at_iff_completed_witness :
    CompWF (emptyStore 10) ∧
    CompWF (repoCreateTask wStore { list_id := "l1", title := "Mail" } "t2" 7).2 ∧
    CompWF (repoUpdateTask wStore "t1" { status := some .completed } 7).2 ∧
    CompWF (repoCompleteTask wStore "t1" 7).2 ∧
    CompWF (repoUncompleteTask wStore "t1" 7).2 ∧
    CompWF (repoDeleteTask wStore "t1" 7).2 ∧
    CompWF (repoDeleteList wStore "l1" true 7).2 :=
  C5_completed_at_iff_completed wStore (by decide)
    { list_id := "l1", title := "Mail" } "t2" "t1" { status := some .completed }
    "t1" "t1" "t1" "l1" true 10 7

/-! ### Claim C8: referential integrity -/

theorem mapGet_isSome_updateListTaskCount (s : Store) (listId : String) (now : Nat)
    (k : String) :
    (mapGet (updateListTaskCount s listId now).lists k).isSome =
      (mapGet s.lists k).isSome := by
  unfold updateListTaskCount
  cases hget : mapGet s.lists listId with
  | none => rfl
  | some l =>
    simp only
    rw [mapGet_mapSet]
    by_cases h : k = listId
    · subst h
      simp [hget]
    · simp [h]

theorem refWF_storeCreateTask {s : Store} (h : RefWF s) {t : Task}
    (ht : (mapGet s.lists t.list_id).isSome) (now : Nat) :
    RefWF (storeCreateTask s t now).2 := by
  rw [storeCreateTask_eq]
  cases checkCapacity s with
  | some e => exact h
  | none =>
    intro q hq
    have h1 : (updateListTaskCount (createdStore s t) t.list_id now).tasks =
        (createdStore s t).tasks := (updateListTaskCount_proj _ _ _).1
    have h2 : (createdStore s t).tasks = mapSet s.tasks t.id t := by
      unfold createdStore
      exact (updateTaskIndexes_proj _ _).1
    rw [h1, h2] at hq
    have h3 : (createdStore s t).lists = s.lists := by
      unfold createdStore
      exact (updateTaskIndexes_proj _ _).2.1
    rw [mapGet_isSome_updateListTaskCount, h3]
    rcases mem_mapSet hq with hq2 | rfl
    · exact h q hq2
    · exact ht

theorem refWF_storeUpdateTask {s : Store} (h : RefWF s) (id : String) {p : TaskPatch}
    {existing : Task} (hget : mapGet s.tasks id = some existing) (now : Nat)
    (hmv : ∀ l, p.list_id = some l → (mapGet s.lists l).isSome = true ∨ l = existing.list_id) :
    RefWF (storeUpdateTask s id p now).2 := by
  rw [storeUpdateTask_eq_some hget]
  have hex := h (id, existing) (mapGet_mem hget)
  have ht2 : (mapGet s.lists (patchedTask existing p id now).list_id).isSome = true := by
    rw [patchedTask_list_id]
    cases hl : p.list_id with
    | none => exact hex
    | some l =>
      rcases hmv l hl with h1 | h1
      · simpa using h1
      · simpa [h1] using hex
  have htasks : (reindexedStore s existing id p now).tasks =
      mapSet s.tasks id (patchedTask existing p id now) := by
    rw [reindexedStore_proj]
  have hlists0 : (reindexedStore s existing id p now).lists = s.lists := by
    rw [reindexedStore_proj]
  simp only
  split
  · intro q hq
    rw [(updateListTaskCount_proj _ _ _).1, (updateListTaskCount_proj _ _ _).1, htasks] at hq
    rw [mapGet_isSome_updateListTaskCount, mapGet_isSome_updateListTaskCount, hlists0]
    rcases mem_mapSet hq with hq2 | rfl
    · exact h q hq2
    · exact ht2
  · intro q hq
    rw [htasks] at hq
    have hgoal : (mapGet (reindexedStore s existing id p now).lists q.2.list_id).isSome =
        (mapGet s.lists q.2.list_id).isSome := by
      rw [hlists0]
    rw [hgoal]
    rcases mem_mapSet hq with hq2 | rfl
    · exact h q hq2
    · exact ht2

theorem refWF_storeDeleteTask {s : Store} (h : RefWF s) (id : String) (now : Nat) :
    RefWF (storeDeleteTask s id now).2 := by
  cases hget : mapGet s.tasks id with
  | none =>
    unfold storeDeleteTask
    rw [hget]
    exact h
  | some t =>
    rw [storeDeleteTask_eq_some hget]
    intro q hq
    rw [(updateListTaskCount_proj _ _ _).1, removedStore_proj] at hq
    have hlq : (removedStore s t id).lists = s.lists := by
      rw [removedStore_proj]
    rw [mapGet_isSome_updateListTaskCount, hlq]
    exact h q (mem_mapDel_iff.mp hq).1

theorem storeDeleteTask_tasks_sub {s : Store} {id : String} {now : Nat} {q : String × Task}
    (hq : q ∈ (storeDeleteTask s id now).2.tasks) : q ∈ s.tasks := by
  cases hget : mapGet s.tasks id with
  | none =>
    unfold storeDeleteTask at hq
    rw [hget] at hq
    exact hq
  | some t =>
    rw [storeDeleteTask_eq_some hget] at hq
    rw [(updateListTaskCount_proj _ _ _).1, removedStore_proj] at hq
    exact (mem_mapDel_iff.mp hq).1

theorem storeDeleteTask_tasks_none {s : Store} {i id : String} {now : Nat}
    (hcase : i = id ∨ mapGet s.tasks i = none) :
    mapGet (storeDeleteTask s id now).2.tasks i = none := by
  cases hget : mapGet s.tasks id with
  | none =>
    unfold storeDeleteTask
    rw [hget]
    rcases hcase with rfl | hnone
    · exact hget
    · exact hnone
  | some t =>
    rw [storeDeleteTask_eq_some hget]
    rw [(updateListTaskCount_proj _ _ _).1, removedStore_proj]
    show mapGet (mapDel s.tasks id) i = none
    rw [mapGet_mapDel]
    rcases hcase with rfl | hnone
    · simp
    · by_cases he : i = id
      · simp [he]
      · simp [he, hnone]

theorem foldDelete_tasks_sub {ids : List String} {s : Store} {now : Nat} {q : String × Task}
    (hq : q ∈ (ids.foldl (fun acc tid => (storeDeleteTask acc tid now).2) s).tasks) :
    q ∈ s.tasks := by
  induction ids generalizing s with
  | nil => exact hq
  | cons a rest ih =>
    simp only [List.foldl_cons] at hq
    exact storeDeleteTask_tasks_sub (ih hq)

theorem foldDelete_tasks_none {ids : List String} {s : Store} {now : Nat} {i : String}
    (hnone : mapGet s.tasks i = none) :
    mapGet ((ids.foldl (fun acc tid => (storeDeleteTask acc tid now).2) s)).tasks i = none := by
  induction ids generalizing s with
  | nil => exact hnone
  | cons a rest ih =>
    simp only [List.foldl_cons]
    exact ih (storeDeleteTask_tasks_none (Or.inr hnone))

theorem foldDelete_removes {ids : List String} {s : Store} {now : Nat} {i : String}
    (hmem : i ∈ ids) :
    mapGet ((ids.foldl (fun acc tid => (storeDeleteTask acc tid now).2) s)).tasks i = none := by
  induction ids generalizing s with
  | nil => simp at hmem
  | cons a rest ih =>
    simp only [List.foldl_cons]
    rcases List.mem_cons.mp hmem with rfl | hmem2
    · exact foldDelete_tasks_none (storeDeleteTask_tasks_none (Or.inl rfl))
    · exact ih hmem2

theorem storeDeleteTask_lists_isSome (s : Store) (id : String) (now : Nat) (k : String) :
    (mapGet (storeDeleteTask s id now).2.lists k).isSome = (mapGet s.lists k).isSome := by
  cases hget : mapGet s.tasks id with
  | none =>
    unfold storeDeleteTask
    rw [hget]
  | some t =>
    rw [storeDeleteTask_eq_some hget]
    rw [mapGet_isSome_updateListTaskCount]
    have hlq : (removedStore s t id).lists = s.lists := by
      rw [removedStore_proj]
    rw [hlq]

theorem foldDelete_lists_isSome (ids : List String) (s : Store) (now : Nat) (k : String) :
    (mapGet ((ids.foldl (fun acc tid => (storeDeleteTask acc tid now).2) s)).lists k).isSome =
      (mapGet s.lists k).isSome := by
  induction ids generalizing s with
  | nil => rfl
  | cons a rest ih =>
    simp only [List.foldl_cons]
    rw [ih, storeDeleteTask_lists_isSome]

/--
Cascading list deletion removes exactly the tasks of the deleted list
(found through the by-list bucket, which is complete when `IndexWF`
holds), so every surviving task still references a surviving list.
-/
theorem refWF_storeDeleteList_cascade {s : Store} (hI : IndexWF s) (hR : RefWF s)
    (id : String) (now : Nat) : RefWF (storeDeleteList s id true now).2 := by
  unfold storeDeleteList
  cases hgl : mapGet s.lists id with
  | none => exact hR
  | some l =>
    simp only
    intro q hq
    have hq1 : q ∈ ((bucketOf s.byList id).foldl
        (fun acc tid => (storeDeleteTask acc tid now).2) s).tasks := hq
    have hqs : q ∈ s.tasks := foldDelete_tasks_sub hq1
    have hIfold := indexWF_foldDelete hI (bucketOf s.byList id) now
    have hne : q.2.list_id ≠ id := by
      intro he
      have hkey : keyOfList q.2 = some id := by
        unfold keyOfList
        rw [he]
      have hbkt : q.1 ∈ bucketOf s.byList id := hI.2.2.1.complete hqs hkey
      have hnone : mapGet ((bucketOf s.byList id).foldl
          (fun acc tid => (storeDeleteTask acc tid now).2) s).tasks q.1 = none :=
        foldDelete_removes hbkt
      have hsome : mapGet ((bucketOf s.byList id).foldl
          (fun acc tid => (storeDeleteTask acc tid now).2) s).tasks q.1 = some q.2 := by
        refine (mem_iff_mapGet_of_nodup hIfold.1).mp ?_
        cases q
        exact hq1
      rw [hnone] at hsome
      cases hsome
    show (mapGet (mapDel ((bucketOf s.byList id).foldl
        (fun acc tid => (storeDeleteTask acc tid now).2) s).lists id) q.2.list_id).isSome = true
    rw [mapGet_mapDel, if_neg hne, foldDelete_lists_isSome]
    exact hR q hqs

theorem refWF_repoCreateTask {s : Store} (h : RefWF s) (input : CreateTaskInput)
    (freshId : String) (now : Nat) : RefWF (repoCreateTask s input freshId now).2 := by
  rw [repoCreateTask_snd]
  cases hgl : mapGet s.lists input.list_id with
  | none => exact h
  | some _ =>
    refine refWF_storeCreateTask h ?_ now
    show (mapGet s.lists input.list_id).isSome = true
    rw [hgl]
    rfl

theorem refWF_repoUpdateTask {s : Store} (h : RefWF s) (id : String)
    {input : UpdateTaskInput} (hui : input.list_id ≠ some "") (now : Nat) :
    RefWF (repoUpdateTask s id input now).2 := by
  cases hget : mapGet s.tasks id with
  | none =>
    unfold repoUpdateTask
    rw [hget]
    exact h
  | some existing =>
    rw [repoUpdateTask_snd_some hget]
    split
    · exact h
    · rename_i hcond
      refine refWF_storeUpdateTask h id (p := patchOfUpdateInput input now) hget now ?_
      intro l hl
      have hl' : input.list_id = some l := hl
      by_cases he : l = existing.list_id
      · exact Or.inr he
      · left
        have hlne : l ≠ "" := by
          intro e
          exact hui (by rw [hl', e])
        have htr : strTruthy input.list_id = true := by
          rw [hl']
          simpa [strTruthy] using hlne
        have hne2 : input.list_id ≠ some existing.list_id := by
          rw [hl']
          intro hc
          exact he (Option.some.inj hc)
        have hnotnone : ¬ (mapGet s.lists (input.list_id.getD "")).isNone = true :=
          fun hnone => hcond ⟨htr, hne2, hnone⟩
        rw [hl'] at hnotnone
        cases hf : mapGet s.lists l with
        | none =>
          exfalso
          apply hnotnone
          show (mapGet s.lists ((some l).getD "")).isNone = true
          rw [show (some l).getD "" = l from rfl, hf]
          rfl
        | some _ => rfl

theorem refWF_emptyStore (mx : Nat) : RefWF (emptyStore mx) := by
  intro q hq
  simp [emptyStore] at hq

/--
Claim C8 (invariants, spec §3 invariant 1): after every completed public
operation touching task/list references — task creation (which fails
with NotFound when the referenced list does not exist), task update
(which fails when moving to a nonexistent list), and list deletion with
its cascade flag (the public HTTP layer always cascades) — every task
remaining in the store has a `list_id` referring to a stored list.
`hui` mirrors the upstream schema validation: a patched `list_id` is a
non-empty UUID.
-/
theorem C8_referential_integrity (s : Store) (hI : IndexWF s) (hR : RefWF s)
    (ti : CreateTaskInput) (ftid : String)
    (uid : String) (ui : UpdateTaskInput) (hui : ui.list_id ≠ some "")
    (dlid : String) (mx now : Nat) :
    RefWF (emptyStore mx) ∧
    RefWF (repoCreateTask s ti ftid now).2 ∧
    RefWF (repoUpdateTask s uid ui now).2 ∧
    RefWF (repoDeleteList s dlid true now).2 :=
  ⟨refWF_emptyStore mx, refWF_repoCreateTask hR ti ftid now,
   refWF_repoUpdateTask hR uid hui now,
   by
     rw [repoDeleteList_snd]
     exact refWF_storeDeleteList_cascade hI hR dlid now⟩

theorem C8_referential_integrity_witness :
    RefWF (emptyStore 10) ∧
    RefWF (repoCreateTask wStore { list_id := "l1", title := "Mail" } "t2" 7).2 ∧
    RefWF (repoUpdateTask wStore "t1" { status := some .completed } 7).2 ∧
    RefWF (repoDeleteList wStore "l1" true 7).2 :=
  C8_referential_integrity wStore (by decide) (by decide)
    { list_id := "l1", title := "Mail" } "t2" "t1" { status := some .completed } (by decide)
    "l1" 10 7

/-! ### Claim C6: `total` semantics of the query pipelines -/

theorem length_filter_lt_of_mem_not {α : Type} {l : List α} {p : α → Bool} {x : α}
    (hx : x ∈ l) (hpx : p x = false) : (l.filter p).length < l.length := by
  induction l with
  | nil => simp at hx
  | cons a rest ih =>
    rcases List.mem_cons.mp hx with rfl | hx2
    · rw [List.filter_cons, hpx]
      have hle := List.length_filter_le p rest
      simp only [Bool.false_eq_true, if_false, List.length_cons]
      omega
    · rw [List.filter_cons]
      by_cases hpa : p a = true
      · have := ih hx2
        simp only [hpa, if_true, List.length_cons]
        omega
      · have := ih hx2
        simp only [Bool.not_eq_true] at hpa
        simp only [hpa, Bool.false_eq_true, if_false, List.length_cons]
        omega

/--
Claim C6 counterexample: `ListRepository.getAllLists` reads `total` from
the list array BEFORE the search filter runs (listRepository.ts line
22), so a list query filtered to a strict subset still reports the
unfiltered store size: two stored lists, search "work" matching one,
returned total 2 ≠ filtered size 1 (and total is not less than the
store size, contradicting the claim for list queries).
-/
theorem C6_total_counterexample :
    (repoGetAllLists wStoreL (some { search := some "work" }) none none none).2 = 2 ∧
    (listApplySearch (storeGetAllLists wStoreL) (some { search := some "work" })).length = 1 ∧
    ¬ ((repoGetAllLists wStoreL (some { search := some "work" }) none none none).2 =
        (listApplySearch (storeGetAllLists wStoreL) (some { search := some "work" })).length) := by
  refine ⟨by decide, by decide, by decide⟩

/--
Claim C6 (amended): for TASK queries the returned `total` equals the size
of the filtered candidate set before sorting and pagination — in
particular filtering to a strict subset yields `total` strictly below
the store's task count — while for LIST queries the returned `total` is
the UNFILTERED lists count (the search filter does not affect it),
contrary to the original claim.
-/
theorem C6_total_semantics (s : Store) (f : TaskFilterParams) (lf : Option ListFilterParams)
    (so so' : Option SortParams) (lim off lim' off' : Option Nat) :
    (repoGetAllTasks s (some f) so lim off).2 =
      (applyTaskFilters (storeGetAllTasks s) f).length ∧
    ((∃ t ∈ storeGetAllTasks s, taskMatchesFilters f t = false) →
      (repoGetAllTasks s (some f) so lim off).2 < (storeGetAllTasks s).length) ∧
    (repoGetAllLists s lf so' lim' off').2 = (storeGetAllLists s).length := by
  refine ⟨rfl, ?_, rfl⟩
  rintro ⟨t, ht, hf⟩
  show (applyTaskFilters (storeGetAllTasks s) f).length < (storeGetAllTasks s).length
  unfold applyTaskFilters
  exact length_filter_lt_of_mem_not ht hf

theorem C6_total_semantics_witness :
    (repoGetAllTasks wStore (some { status := some .completed }) none none none).2 <
      (storeGetAllTasks wStore).length ∧
    (repoGetAllLists wStore none none none none).2 = (storeGetAllLists wStore).length :=
  ⟨(C6_total_semantics wStore { status := some .completed } none none none none none
      none none).2.1 ⟨wTask, by decide, by decide⟩,
   (C6_total_semantics wStore { status := some .completed } none none none none none
      none none).2.2⟩

/-! ### Claim C7: deadline sort placement of tasks without a deadline -/

/--
Claim C7 failing input (code bug): sorting by `deadline` in DESCENDING
order negates the whole comparison, including the "no deadline last"
placement, so a task without a deadline sorts FIRST — contradicting the
comment in `sortTasks` ("put them at the end") and the spec sentence
("at the end regardless of ascending/descending direction"). Ascending
order places it last, as documented.
-/
theorem C7_desc_deadline_misplacement :
    sortTasks [wTask, wTask2] { field := "deadline", order := "desc" } = [wTask2, wTask] ∧
    wTask2.deadline = none ∧
    wTask.deadline = some 600 ∧
    sortTasks [wTask, wTask2] { field := "deadline", order := "asc" } = [wTask, wTask2] := by
  refine ⟨by decide, rfl, rfl, by decide⟩

/-! ### Claim C1: deadline range query vs brute-force scan -/

theorem mem_collectDeadlineRange {s : Store} {t : Task} {cur b : Nat} :
    t ∈ collectDeadlineRange s cur b ↔
      ∃ j : Nat, cur + j * msPerDay ≤ b ∧
        t ∈ deadlineBucketTasks s (formatDateKey (cur + j * msPerDay)) := by
  generalize hm : b + msPerDay - cur = n
  induction n using Nat.strong_induction_on generalizing cur with
  | _ n ih =>
    by_cases hle : cur ≤ b
    · rw [collectDeadlineRange, if_pos hle, List.mem_append]
      have hlt : b + msPerDay - (cur + msPerDay) < n := by
        simp only [msPerDay] at hm hle ⊢
        omega
      have ihh := @ih (b + msPerDay - (cur + msPerDay)) hlt (cur + msPerDay) rfl
      rw [ihh]
      constructor
      · rintro (hb | ⟨j, h1, h2⟩)
        · refine ⟨0, ?_, ?_⟩
          · simpa using hle
          · simpa using hb
        · refine ⟨j + 1, ?_, ?_⟩
          · have he : cur + (j + 1) * msPerDay = cur + msPerDay + j * msPerDay := by ring
            rw [he]
            exact h1
          · have he : cur + (j + 1) * msPerDay = cur + msPerDay + j * msPerDay := by ring
            rw [he]
            exact h2
      · rintro ⟨j, h1, h2⟩
        cases j with
        | zero =>
          left
          simpa using h2
        | succ j =>
          right
          have he : cur + (j + 1) * msPerDay = cur + msPerDay + j * msPerDay := by ring
          rw [he] at h1 h2
          exact ⟨j, h1, h2⟩
    · rw [collectDeadlineRange, if_neg hle]
      simp only [List.not_mem_nil, false_iff, not_exists]
      intro j hj
      have h1 := hj.1
      simp only [msPerDay] at h1
      omega

theorem mem_deadlineBucketTasks {s : Store} (h : IndexWF s) {k : Nat} {t : Task} :
    t ∈ deadlineBucketTasks s k ↔
      (∃ i, mapGet s.tasks i = some t) ∧ ∃ d, t.deadline = some d ∧ formatDateKey d = k := by
  unfold deadlineBucketTasks
  constructor
  · intro ht
    obtain ⟨i, hi, hg⟩ := List.mem_filterMap.mp ht
    obtain ⟨q, hq, hq1, hq2⟩ := h.2.2.2.2.2.sound hi
    have hqt : q.2 = t := by
      have hqget : mapGet s.tasks q.1 = some q.2 := by
        refine (mem_iff_mapGet_of_nodup h.1).mp ?_
        cases q
        exact hq
      rw [hq1, hg] at hqget
      exact (Option.some.inj hqget).symm
    refine ⟨⟨i, hg⟩, ?_⟩
    unfold keyOfDeadline at hq2
    cases hd : t.deadline with
    | none =>
      rw [hqt, hd] at hq2
      simp at hq2
    | some d =>
      refine ⟨d, rfl, ?_⟩
      rw [hqt, hd] at hq2
      simpa using hq2
  · rintro ⟨⟨i, hget⟩, d, hd, hk⟩
    refine List.mem_filterMap.mpr ⟨i, ?_, hget⟩
    refine h.2.2.2.2.2.complete (mapGet_mem hget) ?_
    show keyOfDeadline t = some k
    unfold keyOfDeadline
    rw [hd]
    simpa using hk

theorem mem_storeGetAllTasks {s : Store} (hn : keysNodup s.tasks) {t : Task} :
    t ∈ storeGetAllTasks s ↔ ∃ i, mapGet s.tasks i = some t := by
  unfold storeGetAllTasks
  constructor
  · intro ht
    obtain ⟨q, hq, hq2⟩ := List.mem_map.mp ht
    refine ⟨q.1, ?_⟩
    rw [← hq2]
    refine (mem_iff_mapGet_of_nodup hn).mp ?_
    cases q
    exact hq
  · rintro ⟨i, hget⟩
    exact List.mem_map.mpr ⟨(i, t), mapGet_mem hget, rfl⟩

theorem dayKey_walk_iff {a b d : Nat} (hab : a ≤ b) :
    (∃ j, a + j * msPerDay ≤ b ∧ formatDateKey d = formatDateKey (a + j * msPerDay)) ↔
      (formatDateKey a ≤ formatDateKey d ∧
        formatDateKey d ≤ formatDateKey a + (b - a) / msPerDay) := by
  simp only [formatDateKey, msPerDay] at *
  constructor
  · rintro ⟨j, h1, h2⟩
    omega
  · rintro ⟨h1, h2⟩
    refine ⟨d / 86400000 - a / 86400000, ?_, ?_⟩ <;> omega

/--
Claim C1 counterexample: for the midnight range `[0, 0]` the day-bucket
walk of `getTasksByDeadlineRange` returns the task with deadline 600
(600ms past midnight of day 0), but the brute-force scan with
`0 ≤ deadline ≤ 0` does not — the two disagree whenever deadlines carry
a time of day, so the claimed equality with the exact-timestamp scan is
false.
-/
theorem C1_range_counterexample :
    wTask ∈ getTasksByDeadlineRange wStore 0 0 ∧ wTask ∉ deadlineScan wStore 0 0 := by
  constructor
  · show wTask ∈ collectDeadlineRange wStore 0 0
    refine mem_collectDeadlineRange.mpr ⟨0, by decide, by decide⟩
  · decide

/--
Claim C1 (amended): in any index-consistent store and for every pair of
timestamps `a ≤ b`, `getTasksByDeadlineRange(a, b)` returns exactly the
set of stored tasks whose deadline falls on one of the UTC calendar
days the walk visits: the days `formatDateKey a` through
`formatDateKey a + (b - a) / msPerDay` inclusive. The query is thus
day-granular, not exact-timestamp (a deadline elsewhere in a visited
day is returned even when its timestamp lies outside `[a, b]`), and for
misaligned endpoints the walk carries `a`'s time of day, so `b`'s own
calendar day is visited only when `b`'s time of day is at least `a`'s;
for midnight-aligned endpoints the window is exactly the days of `a`
through `b`.
-/
theorem C1_deadline_range_day_scan (s : Store) (h : IndexWF s) (a b : Nat)
    (hab : a ≤ b) (t : Task) :
    t ∈ getTasksByDeadlineRange s a b ↔ t ∈ deadlineDayScan s a b := by
  unfold getTasksByDeadlineRange
  rw [mem_collectDeadlineRange]
  unfold deadlineDayScan
  rw [List.mem_filter]
  constructor
  · rintro ⟨j, h1, h2⟩
    rw [mem_deadlineBucketTasks h] at h2
    obtain ⟨⟨i, hget⟩, d, hd, hk⟩ := h2
    refine ⟨(mem_storeGetAllTasks h.1).mpr ⟨i, hget⟩, ?_⟩
    rw [hd]
    have hdk : formatDateKey a ≤ formatDateKey d ∧
        formatDateKey d ≤ formatDateKey a + (b - a) / msPerDay :=
      (dayKey_walk_iff hab).mp ⟨j, h1, hk⟩
    simp [hdk.1, hdk.2]
  · rintro ⟨ht, hp⟩
    cases hd : t.deadline with
    | none =>
      rw [hd] at hp
      simp at hp
    | some d =>
      rw [hd] at hp
      have hdk : formatDateKey a ≤ formatDateKey d ∧
          formatDateKey d ≤ formatDateKey a + (b - a) / msPerDay := by
        constructor <;> [exact of_decide_eq_true (Bool.and_elim_left hp);
          exact of_decide_eq_true (Bool.and_elim_right hp)]
      obtain ⟨j, h1, h2⟩ := (dayKey_walk_iff hab).mpr hdk
      obtain ⟨i, hget⟩ := (mem_storeGetAllTasks h.1).mp ht
      refine ⟨j, h1, ?_⟩
      rw [mem_deadlineBucketTasks h]
      exact ⟨⟨i, hget⟩, d, hd, h2⟩

theorem C1_deadline_range_day_scan_witness :
    wTask ∈ getTasksByDeadlineRange wStore 43200000 90000000 ↔
      wTask ∈ deadlineDayScan wStore 43200000 90000000 :=
  C1_deadline_range_day_scan wStore (by decide) 43200000 90000000 (by decide) wTask

end TaskApi
